import Mathlib

/-!
Verification of the slab-search core against its natural-language specification.

The development shallowly embeds the Go source:

* `internal/embeddings/ollama.go` — the embedding codec
  (`SerializeEmbedding`, `DeserializeEmbedding`, `CosineSimilarity`);
* `internal/search/semantic.go` — the retrieval engine
  (`SemanticSearch`, `HybridSearch`, `normalizeScores`);
* `internal/sync/worker.go` — the change-detection sync engine
  (`Sync`, `syncPost`, `Stats`).

Modelling conventions:

* A Go `float32` stored on disk is represented by its bit pattern, a `Nat`
  below `2^32`; the byte codec is a pure function on bit patterns, exactly as
  `binary.LittleEndian` treats it.
* Score arithmetic (`float32`/`float64` in Go) is idealised as real
  arithmetic, the standard idealisation for `math.Sqrt`-based formulas.
* A Go `nil` slice is `Option.none` where the code distinguishes it
  (`DeserializeEmbedding`), and the empty list where it only means
  "length zero".
* External collaborators (the Bleve index query, the Slab remote API, the
  embedding HTTP service) are oracle parameters; everything written in the
  repository itself is translated.
-/

namespace SlabSearch

/-! ## Embedding codec (`internal/embeddings/ollama.go`) -/

/-- One little-endian 4-byte group for a `float32` bit pattern, as written by
`binary.LittleEndian.PutUint32`. -/
def putUint32LE (v : Nat) : List Nat :=
  [v % 256, v / 256 % 256, v / 65536 % 256, v / 16777216 % 256]

/-- `SerializeEmbedding` from `ollama.go`: 4 little-endian bytes per element,
concatenated. Elements are `float32` bit patterns (`math.Float32bits`). -/
def SerializeEmbedding (vec : List Nat) : List Nat :=
  vec.flatMap putUint32LE

/-- The decoding loop of `DeserializeEmbedding`: read each 4-byte group as a
little-endian `uint32` (`binary.LittleEndian.Uint32`). -/
def readUint32LE : List Nat → List Nat
  | b0 :: b1 :: b2 :: b3 :: rest =>
      (b0 + 256 * b1 + 65536 * b2 + 16777216 * b3) :: readUint32LE rest
  | _ => []

/-- `DeserializeEmbedding` from `ollama.go`: returns `none` (Go `nil`) when the
byte length is zero or not a multiple of 4, otherwise the decoded vector. -/
def DeserializeEmbedding (data : List Nat) : Option (List Nat) :=
  if data.length = 0 ∨ data.length % 4 ≠ 0 then none
  else some (readUint32LE data)

/-- A Go `nil` float32 slice behaves as the length-0 vector wherever it is
read; this coercion states that reading. -/
def goSlice (v : Option (List Nat)) : List Nat := v.getD []

theorem length_SerializeEmbedding (v : List Nat) :
    (SerializeEmbedding v).length = 4 * v.length := by
  induction v with
  | nil => rfl
  | cons x v ih =>
      simp [SerializeEmbedding, putUint32LE, List.flatMap_cons] at ih ⊢
      omega

theorem readUint32LE_append (x : Nat) (hx : x < 4294967296) (rest : List Nat) :
    readUint32LE (putUint32LE x ++ rest) = x :: readUint32LE rest := by
  simp only [putUint32LE, List.cons_append, List.nil_append, readUint32LE]
  congr 1
  omega

theorem readUint32LE_SerializeEmbedding (v : List Nat)
    (hv : ∀ x ∈ v, x < 4294967296) :
    readUint32LE (SerializeEmbedding v) = v := by
  induction v with
  | nil => rfl
  | cons x v ih =>
      have hx : x < 4294967296 := hv x (List.mem_cons_self x v)
      simp only [SerializeEmbedding, List.flatMap_cons] at ih ⊢
      rw [readUint32LE_append x hx]
      rw [ih (fun y hy => hv y (List.mem_cons_of_mem x hy))]

/-- C6: for every float32 vector `v` (of any length, in particular 0, 1 and N),
decoding the 4-byte little-endian serialization gives back `v` — a non-empty
vector decodes to `some v`, and the empty vector serializes to the empty byte
string, which decodes to the absent (`nil`) slice, itself the length-0 vector;
moreover `DeserializeEmbedding` of any byte string whose length is zero or not
a multiple of 4 is absent (`nil`) rather than an error. -/
theorem c6_codec_roundtrip (v : List Nat) (hv : ∀ x ∈ v, x < 4294967296) :
    goSlice (DeserializeEmbedding (SerializeEmbedding v)) = v
    ∧ (v ≠ [] → DeserializeEmbedding (SerializeEmbedding v) = some v)
    ∧ (∀ data : List Nat, data.length = 0 ∨ data.length % 4 ≠ 0 →
        DeserializeEmbedding data = none) := by
  refine ⟨?_, ?_, ?_⟩
  · cases v with
    | nil => rfl
    | cons x v =>
        rw [DeserializeEmbedding, if_neg, goSlice, Option.getD_some,
          readUint32LE_SerializeEmbedding _ hv]
        rw [length_SerializeEmbedding]
        simp [Nat.mul_mod_right]
  · intro hne
    cases v with
    | nil => exact absurd rfl hne
    | cons x v =>
        rw [DeserializeEmbedding, if_neg, readUint32LE_SerializeEmbedding _ hv]
        rw [length_SerializeEmbedding]
        simp [Nat.mul_mod_right]
  · intro data hdata
    rw [DeserializeEmbedding, if_pos hdata]

/-- Witness for C6 at the concrete vector `[1, 4294967295]` (bit patterns) and
the concrete invalid byte string `[0, 1, 2]`. -/
theorem c6_codec_roundtrip_witness :
    (∀ x ∈ [1, 4294967295], x < 4294967296)
    ∧ (goSlice (DeserializeEmbedding (SerializeEmbedding [1, 4294967295]))
        = [1, 4294967295]
      ∧ ([1, 4294967295] ≠ ([] : List Nat) →
          DeserializeEmbedding (SerializeEmbedding [1, 4294967295])
            = some [1, 4294967295])
      ∧ (∀ data : List Nat, data.length = 0 ∨ data.length % 4 ≠ 0 →
          DeserializeEmbedding data = none)) :=
  ⟨by decide, c6_codec_roundtrip [1, 4294967295] (by decide)⟩

/-! ## Cosine similarity (`internal/embeddings/ollama.go`) -/

/-- The accumulator loop of `CosineSimilarity`: `dotProduct += a[i]*b[i]`
over the indices of `a` (lengths are equal whenever this is reached). The
same loop with `a a` (resp. `b b`) yields `normA` (resp. `normB`). -/
def dotProduct (a b : List ℝ) : ℝ := (List.zipWith (· * ·) a b).sum

/-- `CosineSimilarity` from `ollama.go`: 0 on length mismatch, 0 when either
vector has zero magnitude, otherwise dot product over the product of norms.
Float arithmetic is idealised as real arithmetic. -/
noncomputable def CosineSimilarity (a b : List ℝ) : ℝ :=
  if a.length ≠ b.length then 0
  else if dotProduct a a = 0 ∨ dotProduct b b = 0 then 0
  else dotProduct a b /
    (Real.sqrt (dotProduct a a) * Real.sqrt (dotProduct b b))

theorem dotProduct_self_nonneg (a : List ℝ) : 0 ≤ dotProduct a a := by
  induction a with
  | nil => simp [dotProduct]
  | cons x a ih =>
      simp only [dotProduct, List.zipWith_cons_cons, List.sum_cons] at ih ⊢
      nlinarith [mul_self_nonneg x]

/-- Arithmetic core of the Cauchy–Schwarz induction step. -/
theorem cauchy_step (x y S A B : ℝ) (h : S ^ 2 ≤ A * B) (ha : 0 ≤ A)
    (hb : 0 ≤ B) : (x * y + S) ^ 2 ≤ (x * x + A) * (y * y + B) := by
  rcases eq_or_lt_of_le hb with hB0 | hBpos
  · have hS2 : S ^ 2 ≤ 0 := by nlinarith
    have hS0 : S = 0 := by
      have h1 : S ^ 2 = 0 := le_antisymm hS2 (sq_nonneg S)
      exact (pow_eq_zero_iff two_ne_zero).mp h1
    rw [hS0, ← hB0]
    nlinarith [mul_nonneg ha (sq_nonneg y)]
  · nlinarith [sq_nonneg (x * B - y * S),
      mul_nonneg (sub_nonneg.2 h) (sq_nonneg y), hBpos, ha, h]

/-- Cauchy–Schwarz for the `CosineSimilarity` accumulator sums. -/
theorem dotProduct_sq_le (a b : List ℝ) :
    dotProduct a b ^ 2 ≤ dotProduct a a * dotProduct b b := by
  induction a generalizing b with
  | nil => simp [dotProduct]
  | cons x a ih =>
      cases b with
      | nil =>
          simp only [dotProduct, List.zipWith_nil_right, List.sum_nil]
          nlinarith [dotProduct_self_nonneg (x :: a)]
      | cons y b =>
          have h := ih b
          have ha := dotProduct_self_nonneg a
          have hb := dotProduct_self_nonneg b
          simp only [dotProduct, List.zipWith_cons_cons, List.sum_cons]
            at h ha hb ⊢
          exact cauchy_step x y _ _ _ h ha hb

/-- C7: `CosineSimilarity` returns exactly 0 when the vectors differ in length
or when either has zero magnitude; for equal-length vectors of non-zero
magnitude it returns the dot product divided by the product of the norms and
the result lies in [-1, 1]; for such a vector with itself the result is
exactly 1 (real-arithmetic idealisation of the float formula). -/
theorem c7_cosine_similarity :
    (∀ a b : List ℝ, a.length ≠ b.length → CosineSimilarity a b = 0)
    ∧ (∀ a b : List ℝ, dotProduct a a = 0 ∨ dotProduct b b = 0 →
        CosineSimilarity a b = 0)
    ∧ (∀ a b : List ℝ, a.length = b.length → dotProduct a a ≠ 0 →
        dotProduct b b ≠ 0 →
        CosineSimilarity a b = dotProduct a b /
          (Real.sqrt (dotProduct a a) * Real.sqrt (dotProduct b b))
        ∧ -1 ≤ CosineSimilarity a b ∧ CosineSimilarity a b ≤ 1)
    ∧ (∀ a : List ℝ, dotProduct a a ≠ 0 → CosineSimilarity a a = 1) := by
  have hform : ∀ a b : List ℝ, a.length = b.length → dotProduct a a ≠ 0 →
      dotProduct b b ≠ 0 → CosineSimilarity a b = dotProduct a b /
        (Real.sqrt (dotProduct a a) * Real.sqrt (dotProduct b b)) := by
    intro a b hlen hA hB
    rw [CosineSimilarity, if_neg (by simp [hlen]), if_neg (by simp [hA, hB])]
  refine ⟨?_, ?_, ?_, ?_⟩
  · intro a b hlen
    rw [CosineSimilarity, if_pos hlen]
  · intro a b hz
    rw [CosineSimilarity]
    by_cases hlen : a.length ≠ b.length
    · rw [if_pos hlen]
    · rw [if_neg hlen, if_pos hz]
  · intro a b hlen hA hB
    have hAp : 0 < dotProduct a a :=
      lt_of_le_of_ne (dotProduct_self_nonneg a) (Ne.symm hA)
    have hBp : 0 < dotProduct b b :=
      lt_of_le_of_ne (dotProduct_self_nonneg b) (Ne.symm hB)
    have hden : 0 < Real.sqrt (dotProduct a a) * Real.sqrt (dotProduct b b) :=
      mul_pos (Real.sqrt_pos.mpr hAp) (Real.sqrt_pos.mpr hBp)
    have hsq : (Real.sqrt (dotProduct a a) * Real.sqrt (dotProduct b b)) ^ 2
        = dotProduct a a * dotProduct b b := by
      rw [mul_pow, Real.sq_sqrt hAp.le, Real.sq_sqrt hBp.le]
    have hcs : dotProduct a b ^ 2
        ≤ (Real.sqrt (dotProduct a a) * Real.sqrt (dotProduct b b)) ^ 2 := by
      rw [hsq]; exact dotProduct_sq_le a b
    have hub : dotProduct a b
        ≤ Real.sqrt (dotProduct a a) * Real.sqrt (dotProduct b b) := by
      nlinarith [hcs, hden]
    have hlb : -(Real.sqrt (dotProduct a a) * Real.sqrt (dotProduct b b))
        ≤ dotProduct a b := by
      nlinarith [hcs, hden]
    refine ⟨hform a b hlen hA hB, ?_, ?_⟩
    · rw [hform a b hlen hA hB, le_div_iff₀ hden]
      linarith
    · rw [hform a b hlen hA hB, div_le_one hden]
      exact hub
  · intro a hA
    have hAp : 0 < dotProduct a a :=
      lt_of_le_of_ne (dotProduct_self_nonneg a) (Ne.symm hA)
    rw [hform a a rfl hA hA, Real.mul_self_sqrt hAp.le, div_self hA]

/-- Witness for C7 at the concrete vectors `[1, 2]`, `[1]` and `[3]`:
mismatched lengths give 0, a zero-magnitude pair gives 0, and a non-zero
vector with itself gives 1. -/
theorem c7_cosine_similarity_witness :
    (([1, 2] : List ℝ).length ≠ ([1] : List ℝ).length
      ∧ CosineSimilarity [1, 2] [1] = 0)
    ∧ (dotProduct [0] [0] = 0 ∧ CosineSimilarity [0] [3] = 0)
    ∧ (dotProduct [3] [3] ≠ 0 ∧ CosineSimilarity [3] [3] = 1) := by
  have h0 : dotProduct [(0 : ℝ)] [(0 : ℝ)] = 0 := by
    simp [dotProduct]
  have h3 : dotProduct [(3 : ℝ)] [(3 : ℝ)] ≠ 0 := by
    simp [dotProduct]
  exact ⟨⟨by simp, c7_cosine_similarity.1 [1, 2] [1] (by simp)⟩,
    ⟨h0, c7_cosine_similarity.2.1 [0] [3] (Or.inl h0)⟩,
    ⟨h3, c7_cosine_similarity.2.2.2 [3] h3⟩⟩

/-! ## Retrieval data model (`internal/storage`, `internal/search`) -/

/-- `storage.Document` (`internal/storage/document.go`): one relational row.
Embedding slots hold the serialized blob; `[]` is Go's `nil` blob. Timestamps
are integers; the `Topics` JSON string is kept as the topic-name list it
serializes. -/
structure Document where
  id : String
  title : String
  content : String
  authorName : String
  authorEmail : String
  slabURL : String
  topics : List String
  publishedAt : Int
  updatedAt : Int
  archivedAt : Option Int
  syncedAt : Int
  embedding : List Nat
  embeddingQwen : List Nat
  deriving DecidableEq

/-- `search.SearchResult` (`internal/search/index.go`). -/
structure SearchResult where
  id : String
  title : String
  author : String
  slabURL : String
  score : ℝ
  fragments : List (String × List String) := []

/-- `DB.List` (`internal/storage/db.go`): all rows, excluding archived rows
unless asked. The SQL `ORDER BY updated_at DESC` only fixes scan order, which
callers treat as meaningless tie-breaking; the model keeps row order. -/
def dbList (db : List Document) (includeArchived : Bool) : List Document :=
  if includeArchived then db else db.filter (fun d => d.archivedAt = none)

/-- The per-document scoring pass of `SemanticSearch`
(`internal/search/semantic.go`): select the embedding slot, skip empty or
undecodable blobs, score the rest with `CosineSimilarity` against the query
vector. `val` interprets a stored float32 bit pattern as the real number it
denotes (Go `math.Float32frombits`). -/
noncomputable def semanticCandidates (db : List Document) (val : Nat → ℝ)
    (queryEmbedding : List ℝ) (useQwen : Bool) : List (Document × ℝ) :=
  (dbList db false).filterMap (fun doc =>
    let embeddingData := if useQwen then doc.embeddingQwen else doc.embedding
    if embeddingData.length = 0 then none
    else
      match DeserializeEmbedding embeddingData with
      | none => none
      | some bits =>
          some (doc, CosineSimilarity queryEmbedding (bits.map val)))

/-- The comparator of `sort.Slice(scores, scores[i].score > scores[j].score)`
in `SemanticSearch`: the output is non-increasing in score. `sort.Slice` is
unstable, so order among equal scores is unspecified; insertion sort fixes
one admissible order. -/
def simGE (a b : Document × ℝ) : Prop := b.2 ≤ a.2

noncomputable instance : DecidableRel simGE :=
  fun a b => inferInstanceAs (Decidable (b.2 ≤ a.2))

instance : IsTotal (Document × ℝ) simGE := ⟨fun a b => le_total b.2 a.2⟩

instance : IsTrans (Document × ℝ) simGE := ⟨fun _ _ _ h1 h2 => le_trans h2 h1⟩

/-- Same comparator discipline for the combined list in `HybridSearch`. -/
def scoreGE (a b : SearchResult) : Prop := b.score ≤ a.score

noncomputable instance : DecidableRel scoreGE :=
  fun a b => inferInstanceAs (Decidable (b.score ≤ a.score))

instance : IsTotal SearchResult scoreGE := ⟨fun a b => le_total b.score a.score⟩

instance : IsTrans SearchResult scoreGE := ⟨fun _ _ _ h1 h2 => le_trans h2 h1⟩

/-- `SemanticSearch` (`internal/search/semantic.go`): score every non-archived
document with a decodable embedding in the selected slot, sort by similarity
descending, return the top `limit` as `SearchResult`s. -/
noncomputable def SemanticSearch (db : List Document) (val : Nat → ℝ)
    (queryEmbedding : List ℝ) (limit : Nat) (useQwen : Bool) :
    List SearchResult :=
  let scores := semanticCandidates db val queryEmbedding useQwen
  let sorted := List.insertionSort simGE scores
  (sorted.take limit).map (fun p =>
    { id := p.1.id, title := p.1.title, author := p.1.authorName,
      slabURL := p.1.slabURL, score := p.2 })

/-! ## Score normalization and hybrid fusion (`internal/search/semantic.go`) -/

/-- The min-finding loop of `normalizeScores`: start from `results[0].Score`,
lower on every strictly smaller score. -/
noncomputable def minScore : List SearchResult → ℝ
  | [] => 0
  | r :: rest => (r :: rest).foldl (fun m x => min m x.score) r.score

/-- The max-finding loop of `normalizeScores`. -/
noncomputable def maxScore : List SearchResult → ℝ
  | [] => 0
  | r :: rest => (r :: rest).foldl (fun m x => max m x.score) r.score

/-- `normalizeScores` (`internal/search/semantic.go`), as the lookup function
of the returned Go map: a present key maps to `(score - min) / (max - min)`,
or to `1.0` for every key when all scores coincide; an absent key reads the
Go zero value `0`. With duplicate IDs the last write wins, hence the reversed
search. -/
noncomputable def normalizeScores (results : List SearchResult) :
    String → ℝ := fun id =>
  match results.reverse.find? (fun r => r.id == id) with
  | none => 0
  | some r =>
      if maxScore results - minScore results = 0 then 1
      else (r.score - minScore results) /
        (maxScore results - minScore results)

/-- One step of the first merge loop of `HybridSearch`: insert the keyword
result under its ID with score `normalized × keywordWeight` (the Go code
stores the result pointer and then rewrites its score). -/
noncomputable def addKeywordResult (kScores : String → ℝ)
    (keywordWeight : ℝ) (m : List SearchResult) (r : SearchResult) :
    List SearchResult :=
  let r' := { r with score := kScores r.id * keywordWeight }
  if m.any (fun x => x.id == r.id) then
    m.map (fun x => if x.id == r.id then r' else x)
  else m ++ [r']

/-- One step of the second merge loop of `HybridSearch`: a document already in
the map gets the weighted semantic score added; a new one is inserted with
score `normalized × semanticWeight`. -/
noncomputable def mergeSemanticResult (sScores : String → ℝ)
    (semanticWeight : ℝ) (m : List SearchResult) (r : SearchResult) :
    List SearchResult :=
  if m.any (fun x => x.id == r.id) then
    m.map (fun x =>
      if x.id == r.id then
        { x with score := x.score + sScores r.id * semanticWeight }
      else x)
  else m ++ [{ r with score := sScores r.id * semanticWeight }]

/-- Steps 2–3 of `HybridSearch`: normalize both candidate sets and merge them
by document ID. The Go `scoreMap` iterates in arbitrary order; the model keeps
insertion order, one admissible order. -/
noncomputable def mergedResults (kw sem : List SearchResult)
    (keywordWeight : ℝ) : List SearchResult :=
  let kScores := normalizeScores kw
  let sScores := normalizeScores sem
  let afterKeyword := kw.foldl (addKeywordResult kScores keywordWeight) []
  sem.foldl (mergeSemanticResult sScores (1 - keywordWeight)) afterKeyword

/-- `HybridSearch` (`internal/search/semantic.go`): validate the weight, fetch
`3 × limit` candidates from the keyword search (an external collaborator,
passed as an oracle) and from `SemanticSearch`, merge, sort by combined score
descending, truncate to `limit`. -/
noncomputable def HybridSearch
    (keywordSearch : String → Nat → List SearchResult)
    (db : List Document) (val : Nat → ℝ) (query : String)
    (queryEmbedding : List ℝ) (limit : Nat) (keywordWeight : ℝ)
    (useQwen : Bool) : Except String (List SearchResult) :=
  if keywordWeight < 0 ∨ keywordWeight > 1 then
    .error "keywordWeight must be between 0 and 1"
  else
    let candidateLimit := limit * 3
    let keywordResults := keywordSearch query candidateLimit
    let semanticResults :=
      SemanticSearch db val queryEmbedding candidateLimit useQwen
    let combined := mergedResults keywordResults semanticResults keywordWeight
    .ok ((List.insertionSort scoreGE combined).take limit)

theorem foldl_min_le_init (l : List SearchResult) (init : ℝ) :
    l.foldl (fun m x => min m x.score) init ≤ init := by
  induction l generalizing init with
  | nil => simp
  | cons x l ih =>
      simp only [List.foldl_cons]
      exact le_trans (ih (min init x.score)) (min_le_left _ _)

theorem foldl_min_le_mem (l : List SearchResult) (init : ℝ)
    (r : SearchResult) (hr : r ∈ l) :
    l.foldl (fun m x => min m x.score) init ≤ r.score := by
  induction l generalizing init with
  | nil => cases hr
  | cons x l ih =>
      simp only [List.foldl_cons]
      rcases List.mem_cons.mp hr with h | h
      · subst h
        exact le_trans (foldl_min_le_init l _) (min_le_right _ _)
      · exact ih _ h

theorem init_le_foldl_max (l : List SearchResult) (init : ℝ) :
    init ≤ l.foldl (fun m x => max m x.score) init := by
  induction l generalizing init with
  | nil => simp
  | cons x l ih =>
      simp only [List.foldl_cons]
      exact le_trans (le_max_left _ _) (ih (max init x.score))

theorem mem_le_foldl_max (l : List SearchResult) (init : ℝ)
    (r : SearchResult) (hr : r ∈ l) :
    r.score ≤ l.foldl (fun m x => max m x.score) init := by
  induction l generalizing init with
  | nil => cases hr
  | cons x l ih =>
      simp only [List.foldl_cons]
      rcases List.mem_cons.mp hr with h | h
      · subst h
        exact le_trans (le_max_right _ _) (init_le_foldl_max l _)
      · exact ih _ h

theorem minScore_le {results : List SearchResult} {r : SearchResult}
    (hr : r ∈ results) : minScore results ≤ r.score := by
  cases results with
  | nil => cases hr
  | cons x rest => exact foldl_min_le_mem (x :: rest) x.score r hr

theorem le_maxScore {results : List SearchResult} {r : SearchResult}
    (hr : r ∈ results) : r.score ≤ maxScore results := by
  cases results with
  | nil => cases hr
  | cons x rest => exact mem_le_foldl_max (x :: rest) x.score r hr

/-- With pairwise-distinct IDs, looking a member's ID up finds that member. -/
theorem find_id_of_nodup (l : List SearchResult) (r : SearchResult)
    (hr : r ∈ l) (hno : (l.map (fun x => x.id)).Nodup) :
    l.find? (fun x => x.id == r.id) = some r := by
  induction l with
  | nil => cases hr
  | cons x l ih =>
      rcases List.mem_cons.mp hr with h | h
      · subst h
        exact List.find?_cons_of_pos _ (by simp)
      · have hx : x.id ≠ r.id := by
          intro heq
          have : r.id ∈ l.map (fun x => x.id) := List.mem_map_of_mem _ h
          rw [List.map_cons, List.nodup_cons] at hno
          exact hno.1 (heq ▸ this)
        rw [List.find?_cons_of_neg _ (by simpa using hx)]
        exact ih h ((List.map_cons _ x l ▸ hno).of_cons)

/-- The map produced by `normalizeScores` read at a member's ID. -/
theorem normalizeScores_eq (results : List SearchResult) (r : SearchResult)
    (hr : r ∈ results) (hno : (results.map (fun x => x.id)).Nodup) :
    normalizeScores results r.id
      = if maxScore results - minScore results = 0 then 1
        else (r.score - minScore results) /
          (maxScore results - minScore results) := by
  have hfind : results.reverse.find? (fun x => x.id == r.id) = some r := by
    refine find_id_of_nodup results.reverse r (List.mem_reverse.mpr hr) ?_
    simp only [List.map_reverse, List.nodup_reverse]
    exact hno
  rw [normalizeScores, hfind]

/-- C3: for every non-empty candidate result set with pairwise-distinct IDs,
normalization maps a member's score `s` to `(s - min) / (max - min)` and that
value lies in [0, 1]; when all scores coincide (`max - min = 0`) every member
is assigned exactly 1 instead of dividing by zero. -/
theorem c3_normalize_scores (results : List SearchResult) (r : SearchResult)
    (hr : r ∈ results) (hno : (results.map (fun x => x.id)).Nodup) :
    (maxScore results - minScore results = 0 →
      normalizeScores results r.id = 1)
    ∧ (maxScore results - minScore results ≠ 0 →
      normalizeScores results r.id
        = (r.score - minScore results) / (maxScore results - minScore results)
      ∧ 0 ≤ normalizeScores results r.id
      ∧ normalizeScores results r.id ≤ 1) := by
  have heq := normalizeScores_eq results r hr hno
  constructor
  · intro h0
    rw [heq, if_pos h0]
  · intro hne0
    have hmin := minScore_le hr
    have hmax := le_maxScore hr
    have hrange : 0 < maxScore results - minScore results :=
      lt_of_le_of_ne (by linarith) (Ne.symm hne0)
    rw [heq, if_neg hne0]
    refine ⟨rfl, div_nonneg (by linarith) hrange.le, ?_⟩
    rw [div_le_one hrange]
    linarith

/-- Witness for C3 at the concrete two-element result set. -/
theorem c3_normalize_scores_witness :
    let rA : SearchResult :=
      { id := "a", title := "", author := "", slabURL := "", score := 10 }
    let rB : SearchResult :=
      { id := "b", title := "", author := "", slabURL := "", score := 2 }
    rA ∈ [rA, rB] ∧ ([rA, rB].map (fun x => x.id)).Nodup
    ∧ ((maxScore [rA, rB] - minScore [rA, rB] = 0 →
        normalizeScores [rA, rB] rA.id = 1)
      ∧ (maxScore [rA, rB] - minScore [rA, rB] ≠ 0 →
        normalizeScores [rA, rB] rA.id
          = (rA.score - minScore [rA, rB]) /
            (maxScore [rA, rB] - minScore [rA, rB])
        ∧ 0 ≤ normalizeScores [rA, rB] rA.id
        ∧ normalizeScores [rA, rB] rA.id ≤ 1)) := by
  refine ⟨by simp, by simp, ?_⟩
  exact c3_normalize_scores _ _ (by simp) (by simp)

theorem setScore_id (r : SearchResult) (v : ℝ) :
    ({ r with score := v } : SearchResult).id = r.id := rfl

theorem setScore_score (r : SearchResult) (v : ℝ) :
    ({ r with score := v } : SearchResult).score = v := rfl

/-- The first merge loop of `HybridSearch`: with pairwise-distinct keyword IDs
that are fresh for the accumulator, it appends each keyword result with score
`normalized × keywordWeight`. -/
theorem foldl_addKeyword (kS : String → ℝ) (w : ℝ) (kw : List SearchResult) :
    ∀ m : List SearchResult, (∀ x ∈ m, ∀ r ∈ kw, x.id ≠ r.id) →
    (kw.map (fun x => x.id)).Nodup →
    kw.foldl (addKeywordResult kS w) m
      = m ++ kw.map (fun r => { r with score := kS r.id * w }) := by
  induction kw with
  | nil => intro m _ _; simp
  | cons r kw ih =>
      intro m hdisj hnod
      rw [List.foldl_cons]
      have hany : m.any (fun x => x.id == r.id) = false := by
        simp only [List.any_eq_false, beq_iff_eq]
        intro x hx
        exact hdisj x hx r (List.mem_cons_self r kw)
      have hstep : addKeywordResult kS w m r
          = m ++ [{ r with score := kS r.id * w }] := by
        rw [addKeywordResult, hany]
        simp
      rw [hstep]
      rw [List.map_cons, List.nodup_cons] at hnod
      have hdisj' : ∀ x ∈ m ++ [{ r with score := kS r.id * w }],
          ∀ r' ∈ kw, x.id ≠ r'.id := by
        intro x hx r' hr'
        rcases List.mem_append.mp hx with h | h
        · exact hdisj x h r' (List.mem_cons_of_mem r hr')
        · rw [List.mem_singleton.mp h, setScore_id]
          intro heq
          exact hnod.1 (heq ▸ List.mem_map_of_mem _ hr')
      rw [ih _ hdisj' hnod.2, List.append_assoc]
      rfl

/-- The second merge loop of `HybridSearch`: documents already present get the
weighted semantic score added in place, new documents are appended with score
`normalized × semanticWeight`. -/
theorem foldl_mergeSemantic (sS : String → ℝ) (sw : ℝ)
    (sem : List SearchResult) :
    ∀ m : List SearchResult, (m.map (fun x => x.id)).Nodup →
    (sem.map (fun x => x.id)).Nodup →
    sem.foldl (mergeSemanticResult sS sw) m
      = m.map (fun x =>
          if x.id ∈ sem.map (fun y => y.id) then
            { x with score := x.score + sS x.id * sw }
          else x)
        ++ (sem.filter (fun r =>
            decide (r.id ∉ m.map (fun x => x.id)))).map
          (fun r => { r with score := sS r.id * sw }) := by
  induction sem with
  | nil => intro m _ _; simp
  | cons s sem ih =>
      intro m hm hs
      rw [List.map_cons, List.nodup_cons] at hs
      rw [List.foldl_cons]
      by_cases hsm : s.id ∈ m.map (fun x => x.id)
      · -- the document is already in the map: in-place bump
        have hany : m.any (fun x => x.id == s.id) = true := by
          simp only [List.any_eq_true, beq_iff_eq]
          obtain ⟨x, hx, hxid⟩ := List.mem_map.mp hsm
          exact ⟨x, hx, hxid⟩
        have hstep : mergeSemanticResult sS sw m s
            = m.map (fun x =>
                if x.id == s.id then
                  { x with score := x.score + sS s.id * sw }
                else x) := by
          rw [mergeSemanticResult, hany]
          simp
        rw [hstep]
        set m₁ := m.map (fun x =>
          if x.id == s.id then
            { x with score := x.score + sS s.id * sw }
          else x) with hm₁def
        have hids : m₁.map (fun x => x.id) = m.map (fun x => x.id) := by
          rw [hm₁def, List.map_map]
          refine List.map_congr_left (fun x _ => ?_)
          by_cases hx : x.id = s.id <;> simp [hx]
        rw [ih m₁ (hids ▸ hm) hs.2]
        congr 1
        · rw [hm₁def, List.map_map]
          refine List.map_congr_left (fun x hx => ?_)
          have hnotsem := hs.1
          simp only [Function.comp_apply]
          by_cases hxs : x.id = s.id
          · rw [if_pos (show (x.id == s.id) = true from beq_iff_eq.mpr hxs)]
            rw [if_neg (show ¬ ({ x with score := x.score + sS s.id * sw } :
                SearchResult).id ∈ sem.map (fun y => y.id) from
                fun h => hnotsem (hxs ▸ h))]
            rw [if_pos (show x.id ∈ (s :: sem).map (fun y => y.id) from by
              rw [List.map_cons]; exact List.mem_cons.mpr (Or.inl hxs))]
            rw [hxs]
          · rw [if_neg (show ¬ (x.id == s.id) = true from by simp [hxs])]
            by_cases hxsem : x.id ∈ sem.map (fun y => y.id)
            · rw [if_pos hxsem,
                if_pos (show x.id ∈ (s :: sem).map (fun y => y.id) from by
                  rw [List.map_cons]
                  exact List.mem_cons.mpr (Or.inr hxsem))]
            · rw [if_neg hxsem,
                if_neg (show ¬ x.id ∈ (s :: sem).map (fun y => y.id) from by
                  rw [List.map_cons]
                  intro h
                  rcases List.mem_cons.mp h with h | h
                  · exact hxs h
                  · exact hxsem h)]
        · rw [List.filter_cons_of_neg (by simpa using hsm)]
          congr 1
          exact List.filter_congr (fun r _ => by rw [hids])
      · -- the document is new: append with the weighted semantic score
        have hany : m.any (fun x => x.id == s.id) = false := by
          simp only [List.any_eq_false, beq_iff_eq]
          intro x hx heq
          exact hsm (heq ▸ List.mem_map_of_mem _ hx)
        have hstep : mergeSemanticResult sS sw m s
            = m ++ [{ s with score := sS s.id * sw }] := by
          rw [mergeSemanticResult, hany]
          simp
        rw [hstep]
        have hids : (m ++ [{ s with score := sS s.id * sw }]).map
            (fun x : SearchResult => x.id)
            = m.map (fun x : SearchResult => x.id) ++ [s.id] := by
          rw [List.map_append]
          rfl
        have hm₁ : ((m ++ [{ s with score := sS s.id * sw }]).map
            (fun x : SearchResult => x.id)).Nodup := by
          rw [hids]
          refine List.Nodup.append hm (List.nodup_singleton _) ?_
          intro a ha hb
          rw [List.mem_singleton.mp hb] at ha
          exact hsm ha
        rw [ih _ hm₁ hs.2, List.map_append]
        have hsid : ({ s with score := sS s.id * sw } : SearchResult).id
            = s.id := rfl
        have hsnew : (([{ s with score := sS s.id * sw }] :
            List SearchResult).map (fun x : SearchResult =>
              if x.id ∈ sem.map (fun y => y.id) then
                { x with score := x.score + sS x.id * sw }
              else x)) = [{ s with score := sS s.id * sw }] := by
          simp only [List.map_cons, List.map_nil, setScore_id]
          rw [if_neg hs.1]
        rw [hsnew]
        rw [List.filter_cons_of_pos (by simpa using hsm)]
        rw [List.append_assoc, List.singleton_append, List.map_cons]
        congr 1
        · refine List.map_congr_left (fun x hx => ?_)
          have hxs : x.id ≠ s.id := by
            intro heq
            exact hsm (heq ▸ List.mem_map_of_mem _ hx)
          by_cases hxsem : x.id ∈ sem.map (fun y => y.id)
          · rw [if_pos hxsem,
              if_pos (show x.id ∈ s.id :: sem.map (fun y => y.id) from
                List.mem_cons.mpr (Or.inr hxsem))]
          · rw [if_neg hxsem,
              if_neg (show ¬ x.id ∈ s.id :: sem.map (fun y => y.id) from by
                intro h
                rcases List.mem_cons.mp h with h | h
                · exact hxs h
                · exact hxsem h)]
        · congr 1
          congr 1
          refine List.filter_congr (fun r hr => ?_)
          have hrs : r.id ≠ s.id := by
            intro heq
            exact hs.1 (heq ▸ List.mem_map_of_mem _ hr)
          rw [hids]
          simp [hrs]

theorem keywordMapped_ids (kw : List SearchResult) (kS : String → ℝ)
    (w : ℝ) :
    (kw.map (fun r => { r with score := kS r.id * w })).map
        (fun x : SearchResult => x.id)
      = kw.map (fun x : SearchResult => x.id) := by
  rw [List.map_map]
  rfl

/-- Closed form of steps 2–3 of `HybridSearch` under pairwise-distinct IDs:
keyword results carry `normK × w`, bumped by `normS × (1-w)` when the document
also appears semantically; semantic-only documents are appended with
`normS × (1-w)`. -/
theorem mergedResults_eq (kw sem : List SearchResult) (w : ℝ)
    (hkw : (kw.map (fun x => x.id)).Nodup)
    (hsem : (sem.map (fun x => x.id)).Nodup) :
    mergedResults kw sem w
      = (kw.map (fun r =>
            { r with score := normalizeScores kw r.id * w })).map
          (fun x =>
            if x.id ∈ sem.map (fun y => y.id) then
              { x with score :=
                  x.score + normalizeScores sem x.id * (1 - w) }
            else x)
        ++ (sem.filter (fun r =>
            decide (r.id ∉ kw.map (fun x => x.id)))).map
          (fun r => { r with score := normalizeScores sem r.id * (1 - w) }) := by
  rw [mergedResults]
  rw [foldl_addKeyword (normalizeScores kw) w kw []
    (fun x hx => absurd hx (List.not_mem_nil x)) hkw]
  rw [List.nil_append]
  rw [foldl_mergeSemantic (normalizeScores sem) (1 - w) sem _
    (by rw [keywordMapped_ids]; exact hkw) hsem]
  rw [keywordMapped_ids]

/-- The fused score demanded by the specification, written from its words:
a document present in only one candidate set contributes its normalized
score times that set's weight; a document present in both contributes the
sum of both weighted normalized scores. -/
noncomputable def specCombinedScore (kw sem : List SearchResult)
    (keywordWeight : ℝ) (id : String) : ℝ :=
  (if id ∈ kw.map (fun x => x.id) then
    normalizeScores kw id * keywordWeight else 0)
  + (if id ∈ sem.map (fun x => x.id) then
    normalizeScores sem id * (1 - keywordWeight) else 0)

theorem mergedResults_score (kw sem : List SearchResult) (w : ℝ)
    (hkw : (kw.map (fun x => x.id)).Nodup)
    (hsem : (sem.map (fun x => x.id)).Nodup) :
    ∀ x ∈ mergedResults kw sem w,
      x.score = specCombinedScore kw sem w x.id
      ∧ (x.id ∈ kw.map (fun y => y.id) ∨ x.id ∈ sem.map (fun y => y.id)) := by
  rw [mergedResults_eq kw sem w hkw hsem]
  intro x hx
  rcases List.mem_append.mp hx with hfirst | hsecond
  · rw [List.map_map] at hfirst
    obtain ⟨r, hr, hrx⟩ := List.mem_map.mp hfirst
    simp only [Function.comp_apply, setScore_id] at hrx
    have hrk : r.id ∈ kw.map (fun y => y.id) := List.mem_map_of_mem _ hr
    by_cases hrsem : r.id ∈ sem.map (fun y => y.id)
    · rw [if_pos hrsem] at hrx
      subst hrx
      refine ⟨?_, Or.inl hrk⟩
      rw [specCombinedScore, if_pos hrk, if_pos hrsem]
    · rw [if_neg hrsem] at hrx
      subst hrx
      refine ⟨?_, Or.inl hrk⟩
      rw [specCombinedScore, if_pos hrk, if_neg hrsem, add_zero]
  · obtain ⟨r, hr, hrx⟩ := List.mem_map.mp hsecond
    rw [List.mem_filter] at hr
    have hrnk : r.id ∉ kw.map (fun y => y.id) := by
      have := hr.2
      simpa using this
    have hrs : r.id ∈ sem.map (fun y => y.id) :=
      show (fun y : SearchResult => y.id) r ∈ sem.map (fun y => y.id) from
        List.mem_map_of_mem _ hr.1
    subst hrx
    refine ⟨?_, Or.inr hrs⟩
    rw [specCombinedScore, if_neg hrnk, if_pos hrs, zero_add]

/-- The merged map is keyed by the union of the two candidate key sets:
all keyword IDs, then the semantic-only IDs. -/
theorem mergedResults_ids (kw sem : List SearchResult) (w : ℝ)
    (hkw : (kw.map (fun x => x.id)).Nodup)
    (hsem : (sem.map (fun x => x.id)).Nodup) :
    (mergedResults kw sem w).map (fun x => x.id)
      = kw.map (fun x => x.id)
        ++ (sem.filter (fun r =>
            decide (r.id ∉ kw.map (fun x => x.id)))).map
          (fun x => x.id) := by
  rw [mergedResults_eq kw sem w hkw hsem, List.map_append]
  congr 1
  · rw [List.map_map, List.map_map]
    refine List.map_congr_left (fun r _ => ?_)
    simp only [Function.comp_apply, setScore_id]
    by_cases hrsem : ({ r with score := normalizeScores kw r.id * w } :
        SearchResult).id ∈ sem.map (fun y => y.id)
    · rw [if_pos hrsem, setScore_id, setScore_id]
    · rw [if_neg hrsem, setScore_id]
  · rw [List.map_map]
    rfl

/-- C1: for a valid lexical weight `w ∈ [0,1]` and result limit `N`,
`HybridSearch` requests `3×N` candidates from the lexical search and from the
vector search, merges the two candidate sets by document key (a document in
only one set receives its normalized score times that set's weight — `w`
lexical, `1-w` vector — and a document in both receives the sum of both
weighted normalized scores), and returns that merged set sorted by combined
score descending and truncated to at most `N` results. Candidate IDs are
assumed pairwise distinct, as the underlying index and store key them. -/
theorem c1_hybrid_search (ksearch : String → Nat → List SearchResult)
    (db : List Document) (val : Nat → ℝ) (q : String) (qv : List ℝ)
    (limit : Nat) (w : ℝ) (uq : Bool) (hw0 : 0 ≤ w) (hw1 : w ≤ 1)
    (hkw : ((ksearch q (limit * 3)).map (fun x => x.id)).Nodup)
    (hsem : ((SemanticSearch db val qv (limit * 3) uq).map
      (fun x => x.id)).Nodup) :
    HybridSearch ksearch db val q qv limit w uq
      = Except.ok ((List.insertionSort scoreGE
          (mergedResults (ksearch q (limit * 3))
            (SemanticSearch db val qv (limit * 3) uq) w)).take limit)
    ∧ (mergedResults (ksearch q (limit * 3))
          (SemanticSearch db val qv (limit * 3) uq) w).map (fun x => x.id)
        = (ksearch q (limit * 3)).map (fun x => x.id)
          ++ ((SemanticSearch db val qv (limit * 3) uq).filter (fun r =>
              decide (r.id ∉ (ksearch q (limit * 3)).map
                (fun x => x.id)))).map (fun x => x.id)
    ∧ (∀ out, HybridSearch ksearch db val q qv limit w uq = Except.ok out →
        out.length ≤ limit
        ∧ List.Sorted scoreGE out
        ∧ (∀ r ∈ out,
            r.score = specCombinedScore (ksearch q (limit * 3))
              (SemanticSearch db val qv (limit * 3) uq) w r.id
            ∧ (r.id ∈ (ksearch q (limit * 3)).map (fun x => x.id)
              ∨ r.id ∈ (SemanticSearch db val qv (limit * 3) uq).map
                (fun x => x.id)))) := by
  have hvalid : ¬ (w < 0 ∨ w > 1) := by
    rintro (h | h) <;> linarith
  have hrun : HybridSearch ksearch db val q qv limit w uq
      = Except.ok ((List.insertionSort scoreGE
          (mergedResults (ksearch q (limit * 3))
            (SemanticSearch db val qv (limit * 3) uq) w)).take limit) := by
    rw [HybridSearch, if_neg hvalid]
  refine ⟨hrun, mergedResults_ids _ _ _ hkw hsem, ?_⟩
  intro out hout
  rw [hrun] at hout
  have hout' : out = (List.insertionSort scoreGE
      (mergedResults (ksearch q (limit * 3))
        (SemanticSearch db val qv (limit * 3) uq) w)).take limit :=
    (Except.ok.injEq _ _ ▸ hout).symm
  subst hout'
  refine ⟨List.length_take_le _ _, ?_, ?_⟩
  · exact (List.sorted_insertionSort scoreGE _).sublist
      (List.take_sublist _ _)
  · intro r hr
    have hmem : r ∈ mergedResults (ksearch q (limit * 3))
        (SemanticSearch db val qv (limit * 3) uq) w :=
      (List.perm_insertionSort scoreGE _).subset (List.take_subset _ _ hr)
    exact mergedResults_score _ _ _ hkw hsem r hmem

/-- Witness for C1 at `w = 1/2`, `limit = 5`, an empty keyword oracle and an
empty document store. -/
theorem c1_hybrid_search_witness :
    ((0 : ℝ) ≤ 1/2 ∧ (1/2 : ℝ) ≤ 1
      ∧ ((((fun (_ : String) (_ : Nat) => ([] : List SearchResult))) "q"
          (5 * 3)).map (fun x => x.id)).Nodup
      ∧ ((SemanticSearch [] (fun _ => 0) [] (5 * 3) false).map
          (fun x => x.id)).Nodup)
    ∧ HybridSearch (fun _ _ => []) [] (fun _ => 0) "q" [] 5 (1/2) false
        = Except.ok ((List.insertionSort scoreGE
            (mergedResults ((fun (_ : String) (_ : Nat) =>
              ([] : List SearchResult)) "q" (5 * 3))
              (SemanticSearch [] (fun _ => 0) [] (5 * 3) false) (1/2))).take 5)
    ∧ (∀ out, HybridSearch (fun _ _ => []) [] (fun _ => 0) "q" [] 5 (1/2)
          false = Except.ok out →
        out.length ≤ 5
        ∧ List.Sorted scoreGE out
        ∧ (∀ r ∈ out,
            r.score = specCombinedScore ((fun (_ : String) (_ : Nat) =>
                ([] : List SearchResult)) "q" (5 * 3))
              (SemanticSearch [] (fun _ => 0) [] (5 * 3) false) (1/2) r.id
            ∧ (r.id ∈ (((fun (_ : String) (_ : Nat) =>
                ([] : List SearchResult)) "q" (5 * 3)).map (fun x => x.id))
              ∨ r.id ∈ (SemanticSearch [] (fun _ => 0) [] (5 * 3)
                  false).map (fun x => x.id)))) := by
  have h := c1_hybrid_search (fun _ _ => []) [] (fun _ => 0) "q" [] 5 (1/2)
    false (by norm_num) (by norm_num) (by simp)
    (by simp [SemanticSearch, semanticCandidates, dbList])
  exact ⟨⟨by norm_num, by norm_num, by simp,
    by simp [SemanticSearch, semanticCandidates, dbList]⟩, h.1, h.2.2⟩

/-- A concrete stored document whose embedding blob decodes to a two-element
vector; against a one-element query vector its cosine similarity is exactly 0
(length mismatch). -/
def zeroScoreDoc : Document :=
  { id := "d1", title := "t", content := "", authorName := "a",
    authorEmail := "", slabURL := "u", topics := [], publishedAt := 0,
    updatedAt := 0, archivedAt := none, syncedAt := 0,
    embedding := [0, 0, 0, 0, 0, 0, 0, 0], embeddingQwen := [] }

/-- C10: vector-only search keeps every non-archived document with a decodable
embedding in the selected slot in its scored candidate set, even when its
cosine similarity is exactly 0 (e.g. a dimension mismatch with the query
vector); concretely, such a zero-scored document appears in the returned
top-N when fewer than N documents score higher. -/
theorem c10_semantic_zero_score :
    (∀ (db : List Document) (val : Nat → ℝ) (qv : List ℝ) (uq : Bool)
        (d : Document) (bits : List Nat), d ∈ db → d.archivedAt = none →
        (if uq then d.embeddingQwen else d.embedding).length ≠ 0 →
        DeserializeEmbedding (if uq then d.embeddingQwen else d.embedding)
          = some bits →
        (d, CosineSimilarity qv (bits.map val))
          ∈ semanticCandidates db val qv uq)
    ∧ (SemanticSearch [zeroScoreDoc] (fun _ => 0) [(1 : ℝ)] 3 false).map
        (fun r => (r.id, r.score)) = [("d1", (0 : ℝ))] := by
  constructor
  · intro db val qv uq d bits hdb harch hlen hdec
    refine List.mem_filterMap.mpr ⟨d, ?_, ?_⟩
    · rw [dbList, if_neg (by simp)]
      exact List.mem_filter.mpr ⟨hdb, by simp [harch]⟩
    · simp [hlen, hdec]
  · rfl

/-- Witness for C10's universal part at the concrete store `[zeroScoreDoc]`. -/
theorem c10_semantic_zero_score_witness :
    (zeroScoreDoc ∈ [zeroScoreDoc] ∧ zeroScoreDoc.archivedAt = none
      ∧ (if false then zeroScoreDoc.embeddingQwen
          else zeroScoreDoc.embedding).length ≠ 0
      ∧ DeserializeEmbedding (if false then zeroScoreDoc.embeddingQwen
          else zeroScoreDoc.embedding) = some [0, 0])
    ∧ (zeroScoreDoc, CosineSimilarity [(1 : ℝ)]
        (([0, 0] : List Nat).map (fun _ => (0 : ℝ))))
      ∈ semanticCandidates [zeroScoreDoc] (fun _ => (0 : ℝ)) [(1 : ℝ)] false :=
  ⟨⟨by simp, rfl, by decide, rfl⟩,
    c10_semantic_zero_score.1 [zeroScoreDoc] (fun _ => (0 : ℝ)) [(1 : ℝ)]
      false zeroScoreDoc [0, 0] (by simp) rfl (by decide) rfl⟩

/-- Min-max normalization is order-reflecting on members of the set: a lower
or equal normalized score means a lower or equal raw score. -/
theorem normalizeScores_le (l : List SearchResult) (s1 s2 : SearchResult)
    (h1 : s1 ∈ l) (h2 : s2 ∈ l) (hno : (l.map (fun x => x.id)).Nodup)
    (hle : normalizeScores l s2.id ≤ normalizeScores l s1.id) :
    s2.score ≤ s1.score := by
  have heq1 := normalizeScores_eq l s1 h1 hno
  have heq2 := normalizeScores_eq l s2 h2 hno
  have hmin1 := minScore_le h1
  have hmax1 := le_maxScore h1
  have hmin2 := minScore_le h2
  have hmax2 := le_maxScore h2
  by_cases hr : maxScore l - minScore l = 0
  · linarith
  · have hrg : 0 < maxScore l - minScore l :=
      lt_of_le_of_ne (by linarith) (Ne.symm hr)
    rw [heq1, heq2, if_neg hr, if_neg hr] at hle
    have h3 := mul_le_mul_of_nonneg_right hle hrg.le
    rw [div_mul_cancel₀ _ (ne_of_gt hrg), div_mul_cancel₀ _ (ne_of_gt hrg)]
      at h3
    linarith

/-- C2 (amended): `HybridSearch` rejects any weight outside [0,1] as the
invalid-argument error, independently of both sub-searches. For `w = 0`,
every returned document that is not a semantic candidate carries combined
score exactly 0, and any two returned documents that are semantic candidates
appear in an order consistent with vector-only ordering (the earlier one has
greater-or-equal raw similarity); symmetrically for `w = 1` with the lexical
candidates. The literal top-N identity claimed fails: zero-weighted
keyword-only documents still occupy result slots (see the counterexample). -/
theorem c2_weight_validation_and_ordering :
    (∀ (ksearch : String → Nat → List SearchResult) (db : List Document)
        (val : Nat → ℝ) (q : String) (qv : List ℝ) (limit : Nat) (w : ℝ)
        (uq : Bool), (w < 0 ∨ w > 1) →
        HybridSearch ksearch db val q qv limit w uq
          = Except.error "keywordWeight must be between 0 and 1")
    ∧ (∀ (ksearch : String → Nat → List SearchResult) (db : List Document)
        (val : Nat → ℝ) (q : String) (qv : List ℝ) (limit : Nat) (uq : Bool),
        ((ksearch q (limit * 3)).map (fun x => x.id)).Nodup →
        ((SemanticSearch db val qv (limit * 3) uq).map
          (fun x => x.id)).Nodup →
        ∀ out, HybridSearch ksearch db val q qv limit 0 uq = Except.ok out →
          (∀ r ∈ out, r.id ∉ (SemanticSearch db val qv (limit * 3) uq).map
              (fun x => x.id) → r.score = 0)
          ∧ out.Pairwise (fun r1 r2 =>
              ∀ s1 ∈ SemanticSearch db val qv (limit * 3) uq,
              ∀ s2 ∈ SemanticSearch db val qv (limit * 3) uq,
              s1.id = r1.id → s2.id = r2.id → s2.score ≤ s1.score))
    ∧ (∀ (ksearch : String → Nat → List SearchResult) (db : List Document)
        (val : Nat → ℝ) (q : String) (qv : List ℝ) (limit : Nat) (uq : Bool),
        ((ksearch q (limit * 3)).map (fun x => x.id)).Nodup →
        ((SemanticSearch db val qv (limit * 3) uq).map
          (fun x => x.id)).Nodup →
        ∀ out, HybridSearch ksearch db val q qv limit 1 uq = Except.ok out →
          (∀ r ∈ out, r.id ∉ (ksearch q (limit * 3)).map (fun x => x.id) →
            r.score = 0)
          ∧ out.Pairwise (fun r1 r2 =>
              ∀ s1 ∈ ksearch q (limit * 3), ∀ s2 ∈ ksearch q (limit * 3),
              s1.id = r1.id → s2.id = r2.id → s2.score ≤ s1.score)) := by
  refine ⟨?_, ?_, ?_⟩
  · intro ksearch db val q qv limit w uq hw
    rw [HybridSearch, if_pos hw]
  · intro ksearch db val q qv limit uq hkw hsem out hout
    have hvalid : ¬ ((0 : ℝ) < 0 ∨ (0 : ℝ) > 1) := by norm_num
    rw [HybridSearch, if_neg hvalid] at hout
    have hout' : out = (List.insertionSort scoreGE
        (mergedResults (ksearch q (limit * 3))
          (SemanticSearch db val qv (limit * 3) uq) 0)).take limit :=
      (Except.ok.injEq _ _ ▸ hout).symm
    subst hout'
    have hmemspec : ∀ r ∈ (List.insertionSort scoreGE
        (mergedResults (ksearch q (limit * 3))
          (SemanticSearch db val qv (limit * 3) uq) 0)).take limit,
        r.score = specCombinedScore (ksearch q (limit * 3))
          (SemanticSearch db val qv (limit * 3) uq) 0 r.id :=
      fun r hr => (mergedResults_score _ _ _ hkw hsem r
        ((List.perm_insertionSort scoreGE _).subset
          (List.take_subset _ _ hr))).1
    constructor
    · intro r hr hnot
      have h := hmemspec r hr
      by_cases hk : r.id ∈ (ksearch q (limit * 3)).map (fun x => x.id)
      · rw [h, specCombinedScore, if_pos hk, if_neg hnot, mul_zero, add_zero]
      · rw [h, specCombinedScore, if_neg hk, if_neg hnot, add_zero]
    · have hsorted : List.Pairwise scoreGE ((List.insertionSort scoreGE
          (mergedResults (ksearch q (limit * 3))
            (SemanticSearch db val qv (limit * 3) uq) 0)).take limit) :=
        (List.sorted_insertionSort scoreGE _).sublist (List.take_sublist _ _)
      refine hsorted.imp_of_mem ?_
      intro r1 r2 h1 h2 hge s1 hs1 s2 hs2 hid1 hid2
      have hr1sem : r1.id ∈ (SemanticSearch db val qv (limit * 3) uq).map
          (fun x => x.id) := by
        rw [← hid1]
        exact show (fun x : SearchResult => x.id) s1 ∈ _ from
          List.mem_map_of_mem _ hs1
      have hr2sem : r2.id ∈ (SemanticSearch db val qv (limit * 3) uq).map
          (fun x => x.id) := by
        rw [← hid2]
        exact show (fun x : SearchResult => x.id) s2 ∈ _ from
          List.mem_map_of_mem _ hs2
      have hone : (1 : ℝ) - 0 = 1 := by norm_num
      have e1 : r1.score = normalizeScores
          (SemanticSearch db val qv (limit * 3) uq) r1.id := by
        by_cases hk : r1.id ∈ (ksearch q (limit * 3)).map (fun x => x.id)
        · rw [hmemspec r1 h1, specCombinedScore, if_pos hk, if_pos hr1sem,
            mul_zero, zero_add, hone, mul_one]
        · rw [hmemspec r1 h1, specCombinedScore, if_neg hk, if_pos hr1sem,
            zero_add, hone, mul_one]
      have e2 : r2.score = normalizeScores
          (SemanticSearch db val qv (limit * 3) uq) r2.id := by
        by_cases hk : r2.id ∈ (ksearch q (limit * 3)).map (fun x => x.id)
        · rw [hmemspec r2 h2, specCombinedScore, if_pos hk, if_pos hr2sem,
            mul_zero, zero_add, hone, mul_one]
        · rw [hmemspec r2 h2, specCombinedScore, if_neg hk, if_pos hr2sem,
            zero_add, hone, mul_one]
      refine normalizeScores_le _ s1 s2 hs1 hs2 hsem ?_
      rw [hid1, hid2, ← e1, ← e2]
      exact hge
  · intro ksearch db val q qv limit uq hkw hsem out hout
    have hvalid : ¬ ((1 : ℝ) < 0 ∨ (1 : ℝ) > 1) := by norm_num
    rw [HybridSearch, if_neg hvalid] at hout
    have hout' : out = (List.insertionSort scoreGE
        (mergedResults (ksearch q (limit * 3))
          (SemanticSearch db val qv (limit * 3) uq) 1)).take limit :=
      (Except.ok.injEq _ _ ▸ hout).symm
    subst hout'
    have hmemspec : ∀ r ∈ (List.insertionSort scoreGE
        (mergedResults (ksearch q (limit * 3))
          (SemanticSearch db val qv (limit * 3) uq) 1)).take limit,
        r.score = specCombinedScore (ksearch q (limit * 3))
          (SemanticSearch db val qv (limit * 3) uq) 1 r.id :=
      fun r hr => (mergedResults_score _ _ _ hkw hsem r
        ((List.perm_insertionSort scoreGE _).subset
          (List.take_subset _ _ hr))).1
    have hzero : (1 : ℝ) - 1 = 0 := by norm_num
    constructor
    · intro r hr hnot
      have h := hmemspec r hr
      by_cases hsm : r.id ∈ (SemanticSearch db val qv (limit * 3) uq).map
          (fun x => x.id)
      · rw [h, specCombinedScore, if_neg hnot, if_pos hsm, hzero, mul_zero,
          add_zero]
      · rw [h, specCombinedScore, if_neg hnot, if_neg hsm, add_zero]
    · have hsorted : List.Pairwise scoreGE ((List.insertionSort scoreGE
          (mergedResults (ksearch q (limit * 3))
            (SemanticSearch db val qv (limit * 3) uq) 1)).take limit) :=
        (List.sorted_insertionSort scoreGE _).sublist (List.take_sublist _ _)
      refine hsorted.imp_of_mem ?_
      intro r1 r2 h1 h2 hge s1 hs1 s2 hs2 hid1 hid2
      have hr1k : r1.id ∈ (ksearch q (limit * 3)).map (fun x => x.id) := by
        rw [← hid1]
        exact show (fun x : SearchResult => x.id) s1 ∈ _ from
          List.mem_map_of_mem _ hs1
      have hr2k : r2.id ∈ (ksearch q (limit * 3)).map (fun x => x.id) := by
        rw [← hid2]
        exact show (fun x : SearchResult => x.id) s2 ∈ _ from
          List.mem_map_of_mem _ hs2
      have e1 : r1.score = normalizeScores (ksearch q (limit * 3)) r1.id := by
        by_cases hsm : r1.id ∈ (SemanticSearch db val qv (limit * 3) uq).map
            (fun x => x.id)
        · rw [hmemspec r1 h1, specCombinedScore, if_pos hr1k, if_pos hsm,
            hzero, mul_zero, add_zero, mul_one]
        · rw [hmemspec r1 h1, specCombinedScore, if_pos hr1k, if_neg hsm,
            add_zero, mul_one]
      have e2 : r2.score = normalizeScores (ksearch q (limit * 3)) r2.id := by
        by_cases hsm : r2.id ∈ (SemanticSearch db val qv (limit * 3) uq).map
            (fun x => x.id)
        · rw [hmemspec r2 h2, specCombinedScore, if_pos hr2k, if_pos hsm,
            hzero, mul_zero, add_zero, mul_one]
        · rw [hmemspec r2 h2, specCombinedScore, if_pos hr2k, if_neg hsm,
            add_zero, mul_one]
      refine normalizeScores_le _ s1 s2 hs1 hs2 hkw ?_
      rw [hid1, hid2, ← e1, ← e2]
      exact hge

/-- Witness for the amended C2: the weight `2` is rejected, and the `w = 0`
part applies at an empty keyword oracle and empty store. -/
theorem c2_weight_validation_and_ordering_witness :
    (((2 : ℝ) < 0 ∨ (2 : ℝ) > 1)
      ∧ HybridSearch (fun _ _ => []) [] (fun _ => 0) "q" [] 1 2 false
          = Except.error "keywordWeight must be between 0 and 1")
    ∧ ((((fun (_ : String) (_ : Nat) => ([] : List SearchResult)) "q"
          (1 * 3)).map (fun x => x.id)).Nodup
      ∧ ((SemanticSearch [] (fun _ => 0) [] (1 * 3) false).map
          (fun x => x.id)).Nodup
      ∧ (∀ out, HybridSearch (fun _ _ => []) [] (fun _ => 0) "q" [] 1 0 false
            = Except.ok out →
          (∀ r ∈ out, r.id ∉ (SemanticSearch [] (fun _ => 0) [] (1 * 3)
              false).map (fun x => x.id) → r.score = 0)
          ∧ out.Pairwise (fun r1 r2 =>
              ∀ s1 ∈ SemanticSearch [] (fun _ => 0) [] (1 * 3) false,
              ∀ s2 ∈ SemanticSearch [] (fun _ => 0) [] (1 * 3) false,
              s1.id = r1.id → s2.id = r2.id → s2.score ≤ s1.score))) := by
  refine ⟨⟨by norm_num, ?_⟩, by simp,
    by simp [SemanticSearch, semanticCandidates, dbList], ?_⟩
  · exact c2_weight_validation_and_ordering.1 (fun _ _ => []) [] (fun _ => 0)
      "q" [] 1 2 false (by norm_num)
  · exact c2_weight_validation_and_ordering.2.1 (fun _ _ => []) []
      (fun _ => 0) "q" [] 1 false (by simp)
      (by simp [SemanticSearch, semanticCandidates, dbList])

/-- A keyword-only search result used in the C2 counterexample. -/
def kwOnlyRes : SearchResult :=
  { id := "d2", title := "t2", author := "a2", slabURL := "u2", score := 3 }

/-- The semantic result produced by `zeroScoreDoc` (cosine similarity 0). -/
def semRes1 : SearchResult :=
  { id := "d1", title := "t", author := "a", slabURL := "u", score := 0 }

/-- Counterexample to C2 as stated: at `w = 0` the hybrid output is not the
vector-only top-N — the zero-weighted keyword-only document `d2` still
occupies a result slot, so the returned ordering is `[d1, d2]` while the
vector-only top-2 is `[d1]`. -/
theorem c2_counterexample :
    ¬ (∀ (ksearch : String → Nat → List SearchResult) (db : List Document)
        (val : Nat → ℝ) (q : String) (qv : List ℝ) (limit : Nat) (uq : Bool)
        (out : List SearchResult),
        HybridSearch ksearch db val q qv limit 0 uq = Except.ok out →
        out.map (fun r => r.id)
          = (SemanticSearch db val qv limit uq).map (fun r => r.id)) := by
  intro hclaim
  have hvalid : ¬ ((0 : ℝ) < 0 ∨ (0 : ℝ) > 1) := by norm_num
  have hnk : normalizeScores [kwOnlyRes] kwOnlyRes.id * (0 : ℝ) = 0 :=
    mul_zero _
  have hns : normalizeScores [semRes1] semRes1.id * ((1 : ℝ) - 0) = 1 := by
    rw [normalizeScores]
    have hfind : ([semRes1].reverse.find? (fun r => r.id == semRes1.id))
        = some semRes1 := rfl
    rw [hfind]
    have hrange : maxScore [semRes1] - minScore [semRes1] = 0 := by
      rw [maxScore, minScore]
      simp
    show (if maxScore [semRes1] - minScore [semRes1] = 0 then (1 : ℝ)
      else (semRes1.score - minScore [semRes1]) /
        (maxScore [semRes1] - minScore [semRes1])) * (1 - 0) = 1
    rw [if_pos hrange]
    norm_num
  have hne : (({ kwOnlyRes with
      score := normalizeScores [kwOnlyRes] kwOnlyRes.id * 0 } :
        SearchResult).id == semRes1.id) = false := by decide
  have hmerged : mergedResults [kwOnlyRes] [semRes1] 0
      = [{ kwOnlyRes with
            score := normalizeScores [kwOnlyRes] kwOnlyRes.id * 0 },
         { semRes1 with
            score := normalizeScores [semRes1] semRes1.id * (1 - 0) }] := by
    rw [mergedResults]
    simp only [List.foldl_cons, List.foldl_nil, addKeywordResult,
      mergeSemanticResult, List.any_nil, Bool.false_eq_true, if_false,
      List.nil_append, List.any_cons, Bool.or_false, hne,
      List.singleton_append]
  rw [hnk, hns] at hmerged
  have hcond : ¬ scoreGE { kwOnlyRes with score := (0 : ℝ) }
      { semRes1 with score := (1 : ℝ) } := by
    intro hge
    have h10 : (1 : ℝ) ≤ 0 := hge
    norm_num at h10
  have hsort : List.insertionSort scoreGE
      [{ kwOnlyRes with score := (0 : ℝ) },
       { semRes1 with score := (1 : ℝ) }]
      = [{ semRes1 with score := (1 : ℝ) },
         { kwOnlyRes with score := (0 : ℝ) }] := by
    simp only [List.insertionSort, List.orderedInsert]
    rw [if_neg hcond]
  have hhybrid : HybridSearch (fun _ _ => [kwOnlyRes]) [zeroScoreDoc]
      (fun _ => 0) "q" [(1 : ℝ)] 2 0 false
      = Except.ok [{ semRes1 with score := (1 : ℝ) },
                   { kwOnlyRes with score := (0 : ℝ) }] := by
    have hsemS : SemanticSearch [zeroScoreDoc] (fun _ => (0 : ℝ))
        [(1 : ℝ)] (2 * 3) false = [semRes1] := rfl
    show (if (0 : ℝ) < 0 ∨ (0 : ℝ) > 1 then
        Except.error "keywordWeight must be between 0 and 1"
      else Except.ok ((List.insertionSort scoreGE
        (mergedResults ((fun (_ : String) (_ : Nat) => [kwOnlyRes]) "q"
            (2 * 3))
          (SemanticSearch [zeroScoreDoc] (fun _ => (0 : ℝ)) [(1 : ℝ)]
            (2 * 3) false) 0)).take 2))
      = Except.ok [{ semRes1 with score := (1 : ℝ) },
                   { kwOnlyRes with score := (0 : ℝ) }]
    rw [if_neg hvalid, hsemS]
    rw [show ((fun (_ : String) (_ : Nat) => [kwOnlyRes]) "q" (2 * 3))
        = [kwOnlyRes] from rfl]
    rw [hmerged, hsort]
    rfl
  have h := hclaim (fun _ _ => [kwOnlyRes]) [zeroScoreDoc] (fun _ => 0) "q"
    [(1 : ℝ)] 2 false _ hhybrid
  have hvec : (SemanticSearch [zeroScoreDoc] (fun _ => (0 : ℝ)) [(1 : ℝ)] 2
      false).map (fun r => r.id) = ["d1"] := rfl
  rw [hvec] at h
  simp [semRes1, kwOnlyRes] at h

/-! ## Change-detection sync engine (`internal/sync/worker.go`)

Timestamps are integers, `0` standing for Go's zero `time.Time`. The worker
pool only interleaves per-document work; all counters are accumulated under
one mutex and each document's effects are confined to its own key, so the
sequentialised model preserves every count, the final world state, and the
per-document effect traces the claims are about. -/

/-- `slab.SlimPost`: one entry of the bulk metadata listing. -/
structure SlimPost where
  id : String
  title : String
  publishedAt : Int
  updatedAt : Int
  archivedAt : Option Int
  topics : List String
  deriving DecidableEq

/-- `slab.User`, as read for author metadata. -/
structure User where
  name : String
  email : String
  deriving DecidableEq

/-- `slab.Post` metadata as consumed by `syncPost` (owner lookup). -/
structure Post where
  owner : Option User
  deriving DecidableEq

/-- `search.IndexedDocument` (`internal/search/index.go`). -/
structure IndexedDocument where
  id : String
  title : String
  content : String
  author : String
  topics : List String
  publishedAt : Int
  updatedAt : Int
  slabURL : String
  deriving DecidableEq

/-- The collaborators `syncPost` and `Sync` call: remote fetches, plus
injectable failures for the store/index writes and index deletes (the Go
adapters return errors which the engine handles). -/
structure RemoteOracle where
  getMarkdown : String → Except String String
  getPost : String → Except String Post
  upsertErr : String → Option String
  indexErr : String → Option String
  deleteErr : String → Option String

/-- The mutable world: relational rows and lexical index entries. -/
structure World where
  db : List Document
  index : List IndexedDocument
  deriving DecidableEq

/-- `sync.Stats` (the wall-clock duration is not modelled). -/
structure Stats where
  totalPosts : Nat := 0
  newPosts : Nat := 0
  updatedPosts : Nat := 0
  skippedPosts : Nat := 0
  archivedRemoved : Nat := 0
  embeddingsGen : Nat := 0
  embeddingsFailed : Nat := 0
  errors : Nat := 0
  deriving DecidableEq

/-- Observable collaborator calls, in order, for the frame claims. -/
inductive Effect where
  | readUpdatedAt (id : String)
  | fetchMarkdown (id : String)
  | fetchPost (id : String)
  | embedCall (text : String)
  | dbUpsert (id : String)
  | indexWrite (id : String)
  | indexDelete (id : String)
  deriving DecidableEq

/-- The document key an effect touches (`none` for the embedding call, which
is keyed by text). -/
def effectId : Effect → Option String
  | .readUpdatedAt id => some id
  | .fetchMarkdown id => some id
  | .fetchPost id => some id
  | .embedCall _ => none
  | .dbUpsert id => some id
  | .indexWrite id => some id
  | .indexDelete id => some id

/-- `DB.GetUpdatedAt`: the zero time for a missing row. -/
def getUpdatedAt (w : World) (id : String) : Int :=
  match w.db.find? (fun d => d.id == id) with
  | none => 0
  | some d => d.updatedAt

/-- The relational row under a key, for frame statements. -/
def rowOf (w : World) (id : String) : Option Document :=
  w.db.find? (fun d => d.id == id)

/-- The lexical index entry under a key, for frame statements. -/
def indexEntryOf (w : World) (id : String) : Option IndexedDocument :=
  w.index.find? (fun d => d.id == id)

/-- `DB.Upsert`: insert or replace by primary key. -/
def dbUpsertW (w : World) (doc : Document) : World :=
  { w with db :=
      if w.db.any (fun d => d.id == doc.id) then
        w.db.map (fun d => if d.id == doc.id then doc else d)
      else w.db ++ [doc] }

/-- Bleve `Index`: index-or-replace by key. -/
def indexUpsertW (w : World) (doc : IndexedDocument) : World :=
  { w with index :=
      if w.index.any (fun d => d.id == doc.id) then
        w.index.map (fun d => if d.id == doc.id then doc else d)
      else w.index ++ [doc] }

/-- Bleve `Delete`: delete by key. -/
def indexDeleteW (w : World) (id : String) : World :=
  { w with index := w.index.filter (fun d => !(d.id == id)) }

/-- Steps 4–5 of `syncPost`: the persisted record built from the fetched body
and metadata (embedding still empty). The `Topics` JSON string is modelled as
the topic-name list it serializes. -/
def buildDocument (p : SlimPost) (markdown : String) (post : Post)
    (now : Int) : Document :=
  let doc0 : Document :=
    { id := p.id, title := p.title, content := markdown,
      authorName := "", authorEmail := "",
      slabURL := "https://slab.render.com/posts/" ++ p.id,
      topics := p.topics, publishedAt := p.publishedAt,
      updatedAt := p.updatedAt, archivedAt := p.archivedAt,
      syncedAt := now, embedding := [], embeddingQwen := [] }
  match post.owner with
  | some owner =>
      { doc0 with authorName := owner.name, authorEmail := owner.email }
  | none => doc0

/-- Step 5.5 of `syncPost`: optional best-effort embedding generation. On
failure the document is kept without embedding data and the failure counter
is bumped; on success the serialized vector is attached. -/
def embedStep (embedder : Option (String → Except String (List Nat)))
    (p : SlimPost) (markdown : String) (doc : Document) (stats : Stats) :
    Document × Stats × List Effect :=
  match embedder with
  | none => (doc, stats, [])
  | some embed =>
      let textToEmbed := p.title ++ "\n\n" ++ markdown
      match embed textToEmbed with
      | .error _ =>
          (doc,
           { stats with embeddingsFailed := stats.embeddingsFailed + 1 },
           [Effect.embedCall textToEmbed])
      | .ok vec =>
          ({ doc with embedding := SerializeEmbedding vec },
           { stats with embeddingsGen := stats.embeddingsGen + 1 },
           [Effect.embedCall textToEmbed])

/-- The indexed form of a persisted document (step 7 of `syncPost`). -/
def toIndexedDocument (doc : Document) (p : SlimPost) : IndexedDocument :=
  { id := doc.id, title := doc.title, content := doc.content,
    author := doc.authorName, topics := p.topics,
    publishedAt := doc.publishedAt, updatedAt := doc.updatedAt,
    slabURL := doc.slabURL }

/-- `syncPost` (`internal/sync/worker.go`): sync a single post. Returns the
new world, updated stats, the collaborator effect trace in call order, and
`some msg` exactly when the Go function returns an error. The locally stored
`updated_at` is read first; a post that exists locally (non-zero time) with
an unchanged timestamp is counted as skipped with no further effect. -/
def syncPost (o : RemoteOracle)
    (embedder : Option (String → Except String (List Nat))) (now : Int)
    (w : World) (stats : Stats) (p : SlimPost) :
    World × Stats × List Effect × Option String :=
  let existingUpdatedAt := getUpdatedAt w p.id
  if existingUpdatedAt ≠ 0 ∧ existingUpdatedAt = p.updatedAt then
    (w, { stats with skippedPosts := stats.skippedPosts + 1 },
     [Effect.readUpdatedAt p.id], none)
  else
    match o.getMarkdown p.id with
    | .error e =>
        (w, stats,
         [Effect.readUpdatedAt p.id, Effect.fetchMarkdown p.id], some e)
    | .ok markdown =>
      match o.getPost p.id with
      | .error e =>
          (w, stats,
           [Effect.readUpdatedAt p.id, Effect.fetchMarkdown p.id,
            Effect.fetchPost p.id], some e)
      | .ok post =>
        let base := buildDocument p markdown post now
        let stepped := embedStep embedder p markdown base stats
        let doc := stepped.1
        let stats1 := stepped.2.1
        let trace1 := [Effect.readUpdatedAt p.id,
          Effect.fetchMarkdown p.id, Effect.fetchPost p.id] ++ stepped.2.2
        match o.upsertErr p.id with
        | some e => (w, stats1, trace1 ++ [Effect.dbUpsert p.id], some e)
        | none =>
          let w1 := dbUpsertW w doc
          match o.indexErr p.id with
          | some e =>
              (w1, stats1,
               trace1 ++ [Effect.dbUpsert p.id, Effect.indexWrite p.id],
               some e)
          | none =>
            let w2 := indexUpsertW w1 (toIndexedDocument doc p)
            let stats2 :=
              if existingUpdatedAt = 0 then
                { stats1 with newPosts := stats1.newPosts + 1 }
              else
                { stats1 with updatedPosts := stats1.updatedPosts + 1 }
            (w2, stats2,
             trace1 ++ [Effect.dbUpsert p.id, Effect.indexWrite p.id], none)

/-- The classification loop of `Sync` (step 2): collect archived IDs for the
removal pass, cap the active set at `maxPosts` when non-zero. The Go loop
`break`s out entirely once the cap is reached, so later entries — archived
ones included — are never examined. Duplicate-free listings are assumed where
needed, matching the Go map keyed by post ID. -/
def partitionPosts (maxPosts : Nat) :
    List SlimPost → Nat → List SlimPost × List String
  | [], _ => ([], [])
  | p :: rest, postCount =>
    if p.archivedAt.isSome then
      let r := partitionPosts maxPosts rest postCount
      (r.1, p.id :: r.2)
    else if 0 < maxPosts ∧ maxPosts ≤ postCount then ([], [])
    else
      let r := partitionPosts maxPosts rest (postCount + 1)
      (p :: r.1, r.2)

/-- One worker iteration of `Sync` step 3: run `syncPost`; a per-post error
is swallowed into the error counter and the run continues. -/
def processPost (o : RemoteOracle)
    (embedder : Option (String → Except String (List Nat))) (now : Int)
    (acc : World × Stats × List Effect) (p : SlimPost) :
    World × Stats × List Effect :=
  let r := syncPost o embedder now acc.1 acc.2.1 p
  match r.2.2.2 with
  | some _ =>
      (r.1, { r.2.1 with errors := r.2.1.errors + 1 }, acc.2.2 ++ r.2.2.1)
  | none => (r.1, r.2.1, acc.2.2 ++ r.2.2.1)

/-- Step 4 of `Sync`: the sequential archived-removal pass. A removal is
counted only when the index delete succeeds; a failure is only logged. -/
def removeArchived (o : RemoteOracle) (acc : World × Stats × List Effect)
    (id : String) : World × Stats × List Effect :=
  match o.deleteErr id with
  | some _ => (acc.1, acc.2.1, acc.2.2 ++ [Effect.indexDelete id])
  | none =>
      (indexDeleteW acc.1 id,
       { acc.2.1 with archivedRemoved := acc.2.1.archivedRemoved + 1 },
       acc.2.2 ++ [Effect.indexDelete id])

/-- `Sync` (`internal/sync/worker.go`): obtain the listing (fatal on
failure), classify, sync every active post, then remove archived entries
from the lexical index; returns the final stats, world and effect trace. -/
def Sync (o : RemoteOracle)
    (embedder : Option (String → Except String (List Nat)))
    (maxPosts : Nat) (now : Int)
    (listing : Except String (List SlimPost)) (w0 : World) :
    Except String (Stats × World × List Effect) :=
  match listing with
  | .error e => .error e
  | .ok allPostsSlice =>
    let parts := partitionPosts maxPosts allPostsSlice 0
    let stats0 : Stats := { totalPosts := parts.1.length }
    let afterPosts := parts.1.foldl (processPost o embedder now)
      (w0, stats0, [])
    let final := parts.2.foldl (removeArchived o) afterPosts
    .ok (final.2.1, final.1, final.2.2)

theorem find?_cons_pos {α : Type} (p : α → Bool) (a : α) (l : List α)
    (h : p a = true) : List.find? p (a :: l) = some a :=
  List.find?_cons_of_pos l h

theorem find?_cons_neg {α : Type} (p : α → Bool) (a : α) (l : List α)
    (h : p a = false) : List.find? p (a :: l) = List.find? p l :=
  List.find?_cons_of_neg l (by rw [h]; exact Bool.false_ne_true)

theorem find?_upsertList {α : Type} (key : α → String) (x : α) (q : String)
    (hq : (key x == q) = false) : ∀ l : List α,
    (if l.any (fun d => key d == key x) then
        l.map (fun d => if key d == key x then x else d)
      else l ++ [x]).find? (fun d => key d == q)
      = l.find? (fun d => key d == q) := by
  intro l
  by_cases hany : l.any (fun d => key d == key x)
  · rw [if_pos hany]
    clear hany
    induction l with
    | nil => rfl
    | cons d l ih =>
        rw [List.map_cons]
        by_cases hd : (key d == key x) = true
        · rw [if_pos hd]
          have hdq : (key d == q) = false := by
            have h1 : key d = key x := beq_iff_eq.mp hd
            rw [h1]
            exact hq
          rw [find?_cons_neg (fun d => key d == q) x _ hq,
            find?_cons_neg (fun d => key d == q) d _ hdq]
          exact ih
        · rw [if_neg hd]
          by_cases hdq : (key d == q) = true
          · rw [find?_cons_pos (fun d => key d == q) d _ hdq,
              find?_cons_pos (fun d => key d == q) d _ hdq]
          · have hdq' : (key d == q) = false := by simpa using hdq
            rw [find?_cons_neg (fun d => key d == q) d _ hdq',
              find?_cons_neg (fun d => key d == q) d _ hdq']
            exact ih
  · rw [if_neg hany]
    have hany' : ∀ a ∈ l, ¬ (key a == key x) = true := by
      simpa [List.any_eq_false] using hany
    clear hany
    induction l with
    | nil =>
        rw [List.nil_append, find?_cons_neg (fun d => key d == q) x _ hq]
    | cons d l ih =>
        rw [List.cons_append]
        by_cases hdq : (key d == q) = true
        · rw [find?_cons_pos (fun d => key d == q) d _ hdq,
            find?_cons_pos (fun d => key d == q) d _ hdq]
        · have hdq' : (key d == q) = false := by simpa using hdq
          rw [find?_cons_neg (fun d => key d == q) d _ hdq',
            find?_cons_neg (fun d => key d == q) d _ hdq']
          exact ih (fun a ha => hany' a (List.mem_cons_of_mem d ha))

theorem find?_upsertList_self {α : Type} (key : α → String) (x : α) :
    ∀ l : List α,
    (if l.any (fun d => key d == key x) then
        l.map (fun d => if key d == key x then x else d)
      else l ++ [x]).find? (fun d => key d == key x) = some x := by
  intro l
  by_cases hany : l.any (fun d => key d == key x)
  · rw [if_pos hany]
    rw [List.any_eq_true] at hany
    obtain ⟨d0, hd0, hd0k⟩ := hany
    induction l with
    | nil => cases hd0
    | cons d l ih =>
        rw [List.map_cons]
        by_cases hd : (key d == key x) = true
        · rw [if_pos hd]
          rw [find?_cons_pos (fun d => key d == key x) x _ (by simp)]
        · rw [if_neg hd]
          have hd' : (key d == key x) = false := by simpa using hd
          rw [find?_cons_neg (fun d => key d == key x) d _ hd']
          rcases List.mem_cons.mp hd0 with h | h
          · subst h
            exact absurd hd0k hd
          · exact ih h
  · rw [if_neg hany]
    have hany' : ∀ a ∈ l, ¬ (key a == key x) = true := by
      simpa [List.any_eq_false] using hany
    clear hany
    induction l with
    | nil =>
        rw [List.nil_append,
          find?_cons_pos (fun d => key d == key x) x _ (by simp)]
    | cons d l ih =>
        rw [List.cons_append]
        have hd' : (key d == key x) = false := by
          simpa using hany' d (List.mem_cons_self d l)
        rw [find?_cons_neg (fun d => key d == key x) d _ hd']
        exact ih (fun a ha => hany' a (List.mem_cons_of_mem d ha))

theorem find?_deleteList {α : Type} (key : α → String) (id q : String)
    (hq : q ≠ id) : ∀ l : List α,
    (l.filter (fun d => !(key d == id))).find? (fun d => key d == q)
      = l.find? (fun d => key d == q) := by
  intro l
  induction l with
  | nil => rfl
  | cons d l ih =>
      by_cases hd : (key d == id) = true
      · rw [List.filter_cons_of_neg (by rw [hd]; decide)]
        have hdq : (key d == q) = false := by
          have h1 : key d = id := beq_iff_eq.mp hd
          rw [h1]
          exact beq_eq_false_iff_ne.mpr (fun h => hq h.symm)
        rw [find?_cons_neg (fun d => key d == q) d _ hdq]
        exact ih
      · have hd' : (key d == id) = false := by simpa using hd
        rw [List.filter_cons_of_pos (by rw [hd']; rfl)]
        by_cases hdq : (key d == q) = true
        · rw [find?_cons_pos (fun d => key d == q) d _ hdq,
            find?_cons_pos (fun d => key d == q) d _ hdq]
        · have hdq' : (key d == q) = false := by simpa using hdq
          rw [find?_cons_neg (fun d => key d == q) d _ hdq',
            find?_cons_neg (fun d => key d == q) d _ hdq']
          exact ih

theorem find?_deleteList_self {α : Type} (key : α → String) (id : String)
    (l : List α) :
    (l.filter (fun d => !(key d == id))).find? (fun d => key d == id)
      = none := by
  rw [List.find?_eq_none]
  intro x hx
  have := (List.mem_filter.mp hx).2
  simpa using this

theorem rowOf_dbUpsertW_ne (w : World) (doc : Document) (q : String)
    (hq : q ≠ doc.id) : rowOf (dbUpsertW w doc) q = rowOf w q :=
  find?_upsertList (fun d : Document => d.id) doc q
    (beq_eq_false_iff_ne.mpr (fun h => hq h.symm)) w.db

theorem rowOf_dbUpsertW_self (w : World) (doc : Document) :
    rowOf (dbUpsertW w doc) doc.id = some doc :=
  find?_upsertList_self (fun d : Document => d.id) doc w.db

theorem indexEntryOf_indexUpsertW_ne (w : World) (doc : IndexedDocument)
    (q : String) (hq : q ≠ doc.id) :
    indexEntryOf (indexUpsertW w doc) q = indexEntryOf w q :=
  find?_upsertList (fun d : IndexedDocument => d.id) doc q
    (beq_eq_false_iff_ne.mpr (fun h => hq h.symm)) w.index

theorem indexEntryOf_indexUpsertW_self (w : World) (doc : IndexedDocument) :
    indexEntryOf (indexUpsertW w doc) doc.id = some doc :=
  find?_upsertList_self (fun d : IndexedDocument => d.id) doc w.index

theorem rowOf_indexUpsertW (w : World) (doc : IndexedDocument) (q : String) :
    rowOf (indexUpsertW w doc) q = rowOf w q := rfl

theorem indexEntryOf_dbUpsertW (w : World) (doc : Document) (q : String) :
    indexEntryOf (dbUpsertW w doc) q = indexEntryOf w q := rfl

theorem rowOf_indexDeleteW (w : World) (id q : String) :
    rowOf (indexDeleteW w id) q = rowOf w q := rfl

theorem indexEntryOf_indexDeleteW_ne (w : World) (id q : String)
    (hq : q ≠ id) : indexEntryOf (indexDeleteW w id) q = indexEntryOf w q :=
  find?_deleteList (fun d : IndexedDocument => d.id) id q hq w.index

theorem indexEntryOf_indexDeleteW_self (w : World) (id : String) :
    indexEntryOf (indexDeleteW w id) id = none :=
  find?_deleteList_self (fun d : IndexedDocument => d.id) id w.index

theorem getUpdatedAt_congr (w w' : World) (q : String)
    (h : rowOf w' q = rowOf w q) : getUpdatedAt w' q = getUpdatedAt w q := by
  rw [getUpdatedAt, getUpdatedAt]
  rw [show w'.db.find? (fun d => d.id == q) = w.db.find? (fun d => d.id == q)
    from h]

theorem buildDocument_id (p : SlimPost) (md : String) (post : Post)
    (now : Int) : (buildDocument p md post now).id = p.id := by
  obtain ⟨ow⟩ := post
  cases ow <;> rfl

theorem buildDocument_embedding (p : SlimPost) (md : String) (post : Post)
    (now : Int) : (buildDocument p md post now).embedding = [] := by
  obtain ⟨ow⟩ := post
  cases ow <;> rfl

theorem buildDocument_content (p : SlimPost) (md : String) (post : Post)
    (now : Int) : (buildDocument p md post now).content = md := by
  obtain ⟨ow⟩ := post
  cases ow <;> rfl

theorem embedStep_doc_id (e : Option (String → Except String (List Nat)))
    (p : SlimPost) (md : String) (doc : Document) (stats : Stats) :
    (embedStep e p md doc stats).1.id = doc.id := by
  cases e with
  | none => rfl
  | some f =>
      simp only [embedStep]
      cases hf : f (p.title ++ "\n\n" ++ md) <;> simp [hf]

@[simp] theorem embedStep_newPosts
    (e : Option (String → Except String (List Nat))) (p : SlimPost)
    (md : String) (doc : Document) (stats : Stats) :
    (embedStep e p md doc stats).2.1.newPosts = stats.newPosts := by
  cases e with
  | none => rfl
  | some f =>
      simp only [embedStep]
      cases hf : f (p.title ++ "\n\n" ++ md) <;> simp [hf]

@[simp] theorem embedStep_updatedPosts
    (e : Option (String → Except String (List Nat))) (p : SlimPost)
    (md : String) (doc : Document) (stats : Stats) :
    (embedStep e p md doc stats).2.1.updatedPosts = stats.updatedPosts := by
  cases e with
  | none => rfl
  | some f =>
      simp only [embedStep]
      cases hf : f (p.title ++ "\n\n" ++ md) <;> simp [hf]

@[simp] theorem embedStep_skippedPosts
    (e : Option (String → Except String (List Nat))) (p : SlimPost)
    (md : String) (doc : Document) (stats : Stats) :
    (embedStep e p md doc stats).2.1.skippedPosts = stats.skippedPosts := by
  cases e with
  | none => rfl
  | some f =>
      simp only [embedStep]
      cases hf : f (p.title ++ "\n\n" ++ md) <;> simp [hf]

@[simp] theorem embedStep_totalPosts
    (e : Option (String → Except String (List Nat))) (p : SlimPost)
    (md : String) (doc : Document) (stats : Stats) :
    (embedStep e p md doc stats).2.1.totalPosts = stats.totalPosts := by
  cases e with
  | none => rfl
  | some f =>
      simp only [embedStep]
      cases hf : f (p.title ++ "\n\n" ++ md) <;> simp [hf]

@[simp] theorem embedStep_errors
    (e : Option (String → Except String (List Nat))) (p : SlimPost)
    (md : String) (doc : Document) (stats : Stats) :
    (embedStep e p md doc stats).2.1.errors = stats.errors := by
  cases e with
  | none => rfl
  | some f =>
      simp only [embedStep]
      cases hf : f (p.title ++ "\n\n" ++ md) <;> simp [hf]

/-- C4's skip path in isolation: an unchanged, locally-present document is
counted as skipped; the world is untouched and the only collaborator effect
is the cheap `updated_at` point read. -/
theorem syncPost_skip (o : RemoteOracle)
    (e : Option (String → Except String (List Nat))) (now : Int) (w : World)
    (stats : Stats) (p : SlimPost) (h1 : getUpdatedAt w p.id ≠ 0)
    (h2 : getUpdatedAt w p.id = p.updatedAt) :
    syncPost o e now w stats p
      = (w, { stats with skippedPosts := stats.skippedPosts + 1 },
         [Effect.readUpdatedAt p.id], none) := by
  simp only [syncPost]
  rw [if_pos ⟨h1, h2⟩]

/-- Each `syncPost` call adds at most one to `new + updated + skipped` and
never changes `totalPosts`. -/
theorem syncPost_counts (o : RemoteOracle)
    (e : Option (String → Except String (List Nat))) (now : Int) (w : World)
    (stats : Stats) (p : SlimPost) :
    ((syncPost o e now w stats p).2.1.newPosts
      + (syncPost o e now w stats p).2.1.updatedPosts
      + (syncPost o e now w stats p).2.1.skippedPosts
      ≤ stats.newPosts + stats.updatedPosts + stats.skippedPosts + 1)
    ∧ (syncPost o e now w stats p).2.1.totalPosts = stats.totalPosts := by
  simp only [syncPost]
  repeat' split
  all_goals simp <;> omega

/-- Whether every keyed effect in a trace touches only the given key. -/
def traceOk (pid : String) (tr : List Effect) : Bool :=
  tr.all (fun eff => match effectId eff with
    | some i => i == pid
    | none => true)

theorem toIndexedDocument_id (doc : Document) (p : SlimPost) :
    (toIndexedDocument doc p).id = doc.id := rfl

@[simp] theorem traceOk_append (pid : String) (t1 t2 : List Effect) :
    traceOk pid (t1 ++ t2) = (traceOk pid t1 && traceOk pid t2) := by
  rw [traceOk, traceOk, traceOk, List.all_append]

@[simp] theorem embedStep_traceOk (pid : String)
    (e : Option (String → Except String (List Nat))) (p : SlimPost)
    (md : String) (doc : Document) (stats : Stats) :
    traceOk pid (embedStep e p md doc stats).2.2 = true := by
  cases e with
  | none => rfl
  | some f =>
      simp only [embedStep]
      cases hf : f (p.title ++ "\n\n" ++ md) <;>
        simp [hf, traceOk, effectId]

theorem syncPost_traceOk (o : RemoteOracle)
    (e : Option (String → Except String (List Nat))) (now : Int) (w : World)
    (stats : Stats) (p : SlimPost) :
    traceOk p.id (syncPost o e now w stats p).2.2.1 = true := by
  simp only [syncPost]
  repeat' split
  all_goals try simp only [traceOk_append, embedStep_traceOk, Bool.and_true]
  all_goals simp [traceOk, effectId]

theorem traceOk_spec (pid : String) (tr : List Effect)
    (h : traceOk pid tr = true) :
    ∀ eff ∈ tr, effectId eff = some pid ∨ effectId eff = none := by
  intro eff heff
  rw [traceOk, List.all_eq_true] at h
  have h1 := h eff heff
  cases heq : effectId eff with
  | none => exact Or.inr rfl
  | some i =>
      rw [heq] at h1
      simp only [beq_iff_eq] at h1
      exact Or.inl (by rw [h1])

/-- `syncPost` only touches its own document's relational row and index
entry. -/
theorem syncPost_frame (o : RemoteOracle)
    (e : Option (String → Except String (List Nat))) (now : Int) (w : World)
    (stats : Stats) (p : SlimPost) (q : String) (hq : q ≠ p.id) :
    rowOf (syncPost o e now w stats p).1 q = rowOf w q
    ∧ indexEntryOf (syncPost o e now w stats p).1 q = indexEntryOf w q := by
  simp only [syncPost]
  repeat' split
  all_goals
    refine ⟨?_, ?_⟩ <;>
      first
        | rfl
        | exact rowOf_dbUpsertW_ne _ _ _ (by
            rw [embedStep_doc_id, buildDocument_id]; exact hq)
        | exact (indexEntryOf_indexUpsertW_ne _ _ _ (by
            rw [toIndexedDocument_id, embedStep_doc_id, buildDocument_id]
            exact hq)).trans (indexEntryOf_dbUpsertW _ _ _)

theorem processPost_counts (o : RemoteOracle)
    (e : Option (String → Except String (List Nat))) (now : Int)
    (acc : World × Stats × List Effect) (p : SlimPost) :
    ((processPost o e now acc p).2.1.newPosts
      + (processPost o e now acc p).2.1.updatedPosts
      + (processPost o e now acc p).2.1.skippedPosts
      ≤ acc.2.1.newPosts + acc.2.1.updatedPosts + acc.2.1.skippedPosts + 1)
    ∧ (processPost o e now acc p).2.1.totalPosts = acc.2.1.totalPosts := by
  have h := syncPost_counts o e now acc.1 acc.2.1 p
  simp only [processPost]
  split <;> simp <;> omega

theorem processFold_counts (o : RemoteOracle)
    (e : Option (String → Except String (List Nat))) (now : Int) :
    ∀ (posts : List SlimPost) (acc : World × Stats × List Effect),
    ((posts.foldl (processPost o e now) acc).2.1.newPosts
      + (posts.foldl (processPost o e now) acc).2.1.updatedPosts
      + (posts.foldl (processPost o e now) acc).2.1.skippedPosts
      ≤ acc.2.1.newPosts + acc.2.1.updatedPosts + acc.2.1.skippedPosts
        + posts.length)
    ∧ (posts.foldl (processPost o e now) acc).2.1.totalPosts
      = acc.2.1.totalPosts := by
  intro posts
  induction posts with
  | nil => intro acc; simp
  | cons p posts ih =>
      intro acc
      rw [List.foldl_cons]
      have h1 := processPost_counts o e now acc p
      have h2 := ih (processPost o e now acc p)
      rw [List.length_cons]
      omega

theorem removeArchived_stats (o : RemoteOracle)
    (acc : World × Stats × List Effect) (id : String) :
    ((removeArchived o acc id).2.1.newPosts = acc.2.1.newPosts
    ∧ (removeArchived o acc id).2.1.updatedPosts = acc.2.1.updatedPosts
    ∧ (removeArchived o acc id).2.1.skippedPosts = acc.2.1.skippedPosts
    ∧ (removeArchived o acc id).2.1.totalPosts = acc.2.1.totalPosts)
    ∧ (removeArchived o acc id).2.1.archivedRemoved
      = acc.2.1.archivedRemoved + (if o.deleteErr id = none then 1 else 0) := by
  simp only [removeArchived]
  split
  · rename_i e heq
    rw [heq]
    simp
  · rename_i heq
    rw [heq]
    simp

theorem removeFold_stats (o : RemoteOracle) :
    ∀ (ids : List String) (acc : World × Stats × List Effect),
    ((ids.foldl (removeArchived o) acc).2.1.newPosts = acc.2.1.newPosts
    ∧ (ids.foldl (removeArchived o) acc).2.1.updatedPosts
      = acc.2.1.updatedPosts
    ∧ (ids.foldl (removeArchived o) acc).2.1.skippedPosts
      = acc.2.1.skippedPosts
    ∧ (ids.foldl (removeArchived o) acc).2.1.totalPosts
      = acc.2.1.totalPosts)
    ∧ ((∀ i ∈ ids, o.deleteErr i = none) →
      (ids.foldl (removeArchived o) acc).2.1.archivedRemoved
        = acc.2.1.archivedRemoved + ids.length) := by
  intro ids
  induction ids with
  | nil => intro acc; simp
  | cons i ids ih =>
      intro acc
      rw [List.foldl_cons]
      have h1 := removeArchived_stats o acc i
      have h2 := ih (removeArchived o acc i)
      refine ⟨⟨?_, ?_, ?_, ?_⟩, ?_⟩
      · omega
      · omega
      · omega
      · omega
      · intro hdel
        have hi := hdel i (List.mem_cons_self i ids)
        have h3 := h2.2 (fun j hj => hdel j (List.mem_cons_of_mem i hj))
        rw [hi] at h1
        simp at h1
        rw [List.length_cons]
        omega

theorem removeArchived_rowOf (o : RemoteOracle)
    (acc : World × Stats × List Effect) (id q : String) :
    rowOf (removeArchived o acc id).1 q = rowOf acc.1 q := by
  simp only [removeArchived]
  split <;> rfl

theorem removeFold_rowOf (o : RemoteOracle) :
    ∀ (ids : List String) (acc : World × Stats × List Effect) (q : String),
    rowOf (ids.foldl (removeArchived o) acc).1 q = rowOf acc.1 q := by
  intro ids
  induction ids with
  | nil => intro acc q; rfl
  | cons i ids ih =>
      intro acc q
      rw [List.foldl_cons, ih, removeArchived_rowOf]

theorem removeArchived_index_none (o : RemoteOracle)
    (acc : World × Stats × List Effect) (id a : String)
    (h : indexEntryOf acc.1 a = none) :
    indexEntryOf (removeArchived o acc id).1 a = none := by
  simp only [removeArchived]
  split
  · exact h
  · by_cases hia : a = id
    · rw [hia]
      exact indexEntryOf_indexDeleteW_self _ _
    · rw [indexEntryOf_indexDeleteW_ne _ _ _ hia]
      exact h

theorem removeFold_index_none (o : RemoteOracle) :
    ∀ (ids : List String) (acc : World × Stats × List Effect) (a : String),
    indexEntryOf acc.1 a = none →
    indexEntryOf (ids.foldl (removeArchived o) acc).1 a = none := by
  intro ids
  induction ids with
  | nil => intro acc a h; exact h
  | cons i ids ih =>
      intro acc a h
      rw [List.foldl_cons]
      exact ih _ a (removeArchived_index_none o acc i a h)

theorem removeFold_index_deleted (o : RemoteOracle) :
    ∀ (ids : List String) (acc : World × Stats × List Effect) (a : String),
    a ∈ ids → o.deleteErr a = none →
    indexEntryOf (ids.foldl (removeArchived o) acc).1 a = none := by
  intro ids
  induction ids with
  | nil => intro acc a h; cases h
  | cons i ids ih =>
      intro acc a ha hdel
      rw [List.foldl_cons]
      rcases List.mem_cons.mp ha with h | h
      · subst h
        refine removeFold_index_none o ids _ a ?_
        simp only [removeArchived, hdel]
        exact indexEntryOf_indexDeleteW_self _ _
      · exact ih _ a h hdel

theorem removeArchived_trace (o : RemoteOracle)
    (acc : World × Stats × List Effect) (id : String) :
    ∀ eff ∈ (removeArchived o acc id).2.2,
      eff ∈ acc.2.2 ∨ ∃ i, eff = Effect.indexDelete i := by
  intro eff heff
  simp only [removeArchived] at heff
  split at heff <;>
    (simp at heff
     rcases heff with h | h
     · exact Or.inl h
     · exact Or.inr ⟨id, h⟩)

theorem removeFold_trace (o : RemoteOracle) :
    ∀ (ids : List String) (acc : World × Stats × List Effect),
    ∀ eff ∈ (ids.foldl (removeArchived o) acc).2.2,
      eff ∈ acc.2.2 ∨ ∃ i, eff = Effect.indexDelete i := by
  intro ids
  induction ids with
  | nil => intro acc eff heff; exact Or.inl heff
  | cons i ids ih =>
      intro acc eff heff
      rw [List.foldl_cons] at heff
      rcases ih _ eff heff with h | h
      · exact removeArchived_trace o acc i eff h
      · exact Or.inr h

theorem partitionPosts_active_subset (maxPosts : Nat) :
    ∀ (l : List SlimPost) (n : Nat),
    ∀ p ∈ (partitionPosts maxPosts l n).1, p ∈ l := by
  intro l
  induction l with
  | nil => intro n p hp; cases hp
  | cons q l ih =>
      intro n p hp
      rw [partitionPosts] at hp
      split at hp
      · exact List.mem_cons_of_mem q (ih n p hp)
      · split at hp
        · cases hp
        · rcases List.mem_cons.mp hp with h | h
          · exact h ▸ List.mem_cons_self q l
          · exact List.mem_cons_of_mem q (ih (n + 1) p h)

theorem partitionPosts_active_not_archived (maxPosts : Nat) :
    ∀ (l : List SlimPost) (n : Nat),
    ∀ p ∈ (partitionPosts maxPosts l n).1, p.archivedAt.isSome = false := by
  intro l
  induction l with
  | nil => intro n p hp; cases hp
  | cons q l ih =>
      intro n p hp
      rw [partitionPosts] at hp
      split at hp
      · exact ih n p hp
      · split at hp
        · cases hp
        · rcases List.mem_cons.mp hp with h | h
          · rename_i hqa _
            subst h
            simpa using hqa
          · exact ih (n + 1) p h

theorem partitionPosts_zero :
    ∀ (l : List SlimPost) (n : Nat),
    partitionPosts 0 l n
      = (l.filter (fun p => !p.archivedAt.isSome),
         (l.filter (fun p => p.archivedAt.isSome)).map (fun p => p.id)) := by
  intro l
  induction l with
  | nil => intro n; rfl
  | cons q l ih =>
      intro n
      rw [partitionPosts]
      by_cases hq : q.archivedAt.isSome
      · rw [if_pos (by simpa using hq), ih n]
        rw [List.filter_cons_of_neg (by simp [hq]),
          List.filter_cons_of_pos (by simpa using hq), List.map_cons]
      · rw [if_neg (by simpa using hq),
          if_neg (by simp), ih (n + 1)]
        rw [List.filter_cons_of_pos (by simp [hq]),
          List.filter_cons_of_neg (by simpa using hq)]

theorem nodup_ids_inj : ∀ (l : List SlimPost),
    (l.map (fun p => p.id)).Nodup →
    ∀ p ∈ l, ∀ q ∈ l, p.id = q.id → p = q := by
  intro l
  induction l with
  | nil => intro _ p hp; cases hp
  | cons r l ih =>
      intro hno p hp q hq hpq
      rw [List.map_cons, List.nodup_cons] at hno
      rcases List.mem_cons.mp hp with h1 | h1 <;>
        rcases List.mem_cons.mp hq with h2 | h2
      · rw [h1, h2]
      · have hmem : q.id ∈ l.map (fun p : SlimPost => p.id) :=
          List.mem_map_of_mem _ h2
        rw [← hpq, h1] at hmem
        exact absurd hmem hno.1
      · have hmem : p.id ∈ l.map (fun p : SlimPost => p.id) :=
          List.mem_map_of_mem _ h1
        rw [hpq, h2] at hmem
        exact absurd hmem hno.1
      · exact ih hno.2 p h1 q h2 hpq

/-- C9: whatever the oracles do — every per-document fetch, store, index or
embedding operation may fail — a completed sync run's statistics satisfy
`new + updated + skipped ≤ total`: each dispatched document increments at
most one of the three counters, and `total` is fixed up front as the number
of dispatched documents. -/
theorem c9_sync_stats_invariant :
    ∀ (o : RemoteOracle) (e : Option (String → Except String (List Nat)))
      (maxPosts : Nat) (now : Int) (listing : List SlimPost) (w0 : World)
      (stats : Stats) (w' : World) (tr : List Effect),
    Sync o e maxPosts now (Except.ok listing) w0
      = Except.ok (stats, w', tr) →
    stats.newPosts + stats.updatedPosts + stats.skippedPosts
      ≤ stats.totalPosts := by
  intro o e maxPosts now listing w0 stats w' tr h
  simp only [Sync] at h
  rw [Except.ok.injEq, Prod.mk.injEq, Prod.mk.injEq] at h
  obtain ⟨hs, _, _⟩ := h
  subst hs
  obtain ⟨⟨hn, hu, hk, htot⟩, _⟩ := removeFold_stats o
    (partitionPosts maxPosts listing 0).2
    ((partitionPosts maxPosts listing 0).1.foldl (processPost o e now)
      (w0, { totalPosts := (partitionPosts maxPosts listing 0).1.length },
        []))
  obtain ⟨hA, hA2⟩ := processFold_counts o e now
    (partitionPosts maxPosts listing 0).1
    (w0, { totalPosts := (partitionPosts maxPosts listing 0).1.length }, [])
  have e1 : ((w0,
      ({ totalPosts := (partitionPosts maxPosts listing 0).1.length } :
        Stats), ([] : List Effect)).2.1).newPosts = 0 := rfl
  have e2 : ((w0,
      ({ totalPosts := (partitionPosts maxPosts listing 0).1.length } :
        Stats), ([] : List Effect)).2.1).updatedPosts = 0 := rfl
  have e3 : ((w0,
      ({ totalPosts := (partitionPosts maxPosts listing 0).1.length } :
        Stats), ([] : List Effect)).2.1).skippedPosts = 0 := rfl
  have e4 : ((w0,
      ({ totalPosts := (partitionPosts maxPosts listing 0).1.length } :
        Stats), ([] : List Effect)).2.1).totalPosts
      = (partitionPosts maxPosts listing 0).1.length := rfl
  omega

/-- A concrete oracle whose remote fetches fail and whose store, index and
delete operations succeed. -/
def trivialOracle : RemoteOracle :=
  { getMarkdown := fun _ => Except.error "e",
    getPost := fun _ => Except.error "e",
    upsertErr := fun _ => none,
    indexErr := fun _ => none,
    deleteErr := fun _ => none }

/-- Witness for C9 at a concrete empty run. -/
theorem c9_sync_stats_invariant_witness :
    Sync trivialOracle none 0 0 (Except.ok []) ⟨[], []⟩
      = Except.ok ({ totalPosts := 0 }, ⟨[], []⟩, [])
    ∧ ({ totalPosts := 0 } : Stats).newPosts
        + ({ totalPosts := 0 } : Stats).updatedPosts
        + ({ totalPosts := 0 } : Stats).skippedPosts
      ≤ ({ totalPosts := 0 } : Stats).totalPosts :=
  ⟨rfl, c9_sync_stats_invariant trivialOracle none 0 0 [] ⟨[], []⟩
    { totalPosts := 0 } ⟨[], []⟩ [] rfl⟩

theorem processPost_world (o : RemoteOracle)
    (e : Option (String → Except String (List Nat))) (now : Int)
    (acc : World × Stats × List Effect) (p : SlimPost) :
    (processPost o e now acc p).1 = (syncPost o e now acc.1 acc.2.1 p).1 := by
  simp only [processPost]
  split <;> rfl

theorem processPost_trace (o : RemoteOracle)
    (e : Option (String → Except String (List Nat))) (now : Int)
    (acc : World × Stats × List Effect) (p : SlimPost) :
    (processPost o e now acc p).2.2
      = acc.2.2 ++ (syncPost o e now acc.1 acc.2.1 p).2.2.1 := by
  simp only [processPost]
  split <;> rfl

/-- Along the worker pass, a locally-present, unchanged document is never
fetched or written: its skip condition is preserved by every other document's
work (which only touches that document's own key), and its own turn takes
the skip path. -/
theorem processFold_no_touch (o : RemoteOracle)
    (e : Option (String → Except String (List Nat))) (now : Int)
    (p : SlimPost) :
    ∀ (posts : List SlimPost) (acc : World × Stats × List Effect),
    (∀ q ∈ posts, q.id = p.id → q = p) →
    getUpdatedAt acc.1 p.id ≠ 0 →
    getUpdatedAt acc.1 p.id = p.updatedAt →
    (∀ eff ∈ acc.2.2,
      eff ≠ Effect.fetchMarkdown p.id ∧ eff ≠ Effect.fetchPost p.id
      ∧ eff ≠ Effect.dbUpsert p.id ∧ eff ≠ Effect.indexWrite p.id) →
    ∀ eff ∈ (posts.foldl (processPost o e now) acc).2.2,
      eff ≠ Effect.fetchMarkdown p.id ∧ eff ≠ Effect.fetchPost p.id
      ∧ eff ≠ Effect.dbUpsert p.id ∧ eff ≠ Effect.indexWrite p.id := by
  intro posts
  induction posts with
  | nil => intro acc _ _ _ htr; exact htr
  | cons q posts ih =>
      intro acc hids hnz hequ htr
      rw [List.foldl_cons]
      have hq' : ∀ r ∈ posts, r.id = p.id → r = p :=
        fun r hr => hids r (List.mem_cons_of_mem q hr)
      by_cases hqp : q.id = p.id
      · have hq : q = p := hids q (List.mem_cons_self q posts) hqp
        subst hq
        have hskip := syncPost_skip o e now acc.1 acc.2.1 q hnz hequ
        have hpp : processPost o e now acc q
            = (acc.1,
               { acc.2.1 with skippedPosts := acc.2.1.skippedPosts + 1 },
               acc.2.2 ++ [Effect.readUpdatedAt q.id]) := by
          simp only [processPost, hskip]
        rw [hpp]
        refine ih _ hq' hnz hequ ?_
        intro eff heff
        rcases List.mem_append.mp heff with h | h
        · exact htr eff h
        · rw [List.mem_singleton.mp h]
          exact ⟨by simp, by simp, by simp, by simp⟩
      · have hframe := syncPost_frame o e now acc.1 acc.2.1 q p.id
          (fun h => hqp h.symm)
        have htrq := syncPost_traceOk o e now acc.1 acc.2.1 q
        refine ih _ hq' ?_ ?_ ?_
        · rw [processPost_world, getUpdatedAt_congr _ _ _ hframe.1]
          exact hnz
        · rw [processPost_world, getUpdatedAt_congr _ _ _ hframe.1]
          exact hequ
        · intro eff heff
          rw [processPost_trace] at heff
          rcases List.mem_append.mp heff with h | h
          · exact htr eff h
          · have hspec := traceOk_spec q.id _ htrq eff h
            have hbad : ∀ i : String, effectId eff = some i → i = q.id := by
              intro i hi
              rcases hspec with h' | h'
              · rw [hi] at h'
                exact Option.some_inj.mp h'
              · rw [hi] at h'
                cases h'
            refine ⟨?_, ?_, ?_, ?_⟩ <;> intro heq <;> subst heq <;>
              exact hqp (hbad p.id rfl).symm

/-- C4: a locally-present active document whose stored `updated_at` equals
the remote one is counted as skipped, with the world untouched and the
`updated_at` point read as the only collaborator effect — in particular no
body fetch happens before or after the check; and over a whole sync run such
a document's key sees no body fetch, no metadata fetch, no store write and
no index write at all. -/
theorem c4_skip_unchanged :
    (∀ (o : RemoteOracle) (e : Option (String → Except String (List Nat)))
        (now : Int) (w : World) (stats : Stats) (p : SlimPost),
      getUpdatedAt w p.id ≠ 0 → getUpdatedAt w p.id = p.updatedAt →
      syncPost o e now w stats p
        = (w, { stats with skippedPosts := stats.skippedPosts + 1 },
           [Effect.readUpdatedAt p.id], none))
    ∧ (∀ (o : RemoteOracle) (e : Option (String → Except String (List Nat)))
        (maxPosts : Nat) (now : Int) (listing : List SlimPost) (w0 : World)
        (stats : Stats) (w' : World) (tr : List Effect) (p : SlimPost),
      Sync o e maxPosts now (Except.ok listing) w0
        = Except.ok (stats, w', tr) →
      (listing.map (fun q => q.id)).Nodup → p ∈ listing →
      p.archivedAt = none →
      getUpdatedAt w0 p.id ≠ 0 → getUpdatedAt w0 p.id = p.updatedAt →
      Effect.fetchMarkdown p.id ∉ tr ∧ Effect.fetchPost p.id ∉ tr
      ∧ Effect.dbUpsert p.id ∉ tr ∧ Effect.indexWrite p.id ∉ tr) := by
  constructor
  · exact syncPost_skip
  · intro o e maxPosts now listing w0 stats w' tr p h hno hp _ hnz hequ
    simp only [Sync] at h
    rw [Except.ok.injEq, Prod.mk.injEq, Prod.mk.injEq] at h
    obtain ⟨_, _, ht⟩ := h
    subst ht
    have hproc := processFold_no_touch o e now p
      (partitionPosts maxPosts listing 0).1
      (w0, { totalPosts := (partitionPosts maxPosts listing 0).1.length },
        [])
      (fun q hq hqp => nodup_ids_inj listing hno q
        (partitionPosts_active_subset maxPosts listing 0 q hq) p hp hqp)
      hnz hequ (fun eff heff => absurd heff (List.not_mem_nil eff))
    refine ⟨?_, ?_, ?_, ?_⟩ <;> intro hmem <;>
      rcases removeFold_trace o (partitionPosts maxPosts listing 0).2 _ _
        hmem with h | ⟨i, hi⟩
    · exact (hproc _ h).1 rfl
    · cases hi
    · exact (hproc _ h).2.1 rfl
    · cases hi
    · exact (hproc _ h).2.2.1 rfl
    · cases hi
    · exact (hproc _ h).2.2.2 rfl
    · cases hi

/-- A concrete active post with a matching stored row, for witnesses. -/
def paPost : SlimPost :=
  { id := "a", title := "t", publishedAt := 0, updatedAt := 5,
    archivedAt := none, topics := [] }

/-- The stored row whose `updated_at` matches `paPost`. -/
def docA : Document :=
  { id := "a", title := "t", content := "", authorName := "",
    authorEmail := "", slabURL := "", topics := [], publishedAt := 0,
    updatedAt := 5, archivedAt := none, syncedAt := 0, embedding := [],
    embeddingQwen := [] }

/-- The world already holding `docA`. -/
def wA : World := { db := [docA], index := [] }

/-- Witness for C4 at the concrete one-post run over `wA`. -/
theorem c4_skip_unchanged_witness :
    (getUpdatedAt wA paPost.id ≠ 0
      ∧ getUpdatedAt wA paPost.id = paPost.updatedAt
      ∧ Sync trivialOracle none 0 0 (Except.ok [paPost]) wA
          = Except.ok ({ totalPosts := 1, skippedPosts := 1 }, wA,
              [Effect.readUpdatedAt "a"])
      ∧ ([paPost].map (fun q => q.id)).Nodup ∧ paPost ∈ [paPost]
      ∧ paPost.archivedAt = none)
    ∧ syncPost trivialOracle none 0 wA { totalPosts := 1 } paPost
        = (wA, { totalPosts := 1, skippedPosts := 1 },
           [Effect.readUpdatedAt paPost.id], none)
    ∧ (Effect.fetchMarkdown paPost.id ∉ [Effect.readUpdatedAt "a"]
      ∧ Effect.fetchPost paPost.id ∉ [Effect.readUpdatedAt "a"]
      ∧ Effect.dbUpsert paPost.id ∉ [Effect.readUpdatedAt "a"]
      ∧ Effect.indexWrite paPost.id ∉ [Effect.readUpdatedAt "a"]) :=
  ⟨⟨by decide, by decide, rfl, by simp, by simp, rfl⟩,
    c4_skip_unchanged.1 trivialOracle none 0 wA { totalPosts := 1 } paPost
      (by decide) (by decide),
    c4_skip_unchanged.2 trivialOracle none 0 0 [paPost] wA
      { totalPosts := 1, skippedPosts := 1 } wA [Effect.readUpdatedAt "a"]
      paPost rfl (by simp) (by simp) rfl (by decide) (by decide)⟩

@[simp] theorem embedStep_archivedRemoved
    (e : Option (String → Except String (List Nat))) (p : SlimPost)
    (md : String) (doc : Document) (stats : Stats) :
    (embedStep e p md doc stats).2.1.archivedRemoved
      = stats.archivedRemoved := by
  cases e with
  | none => rfl
  | some f =>
      simp only [embedStep]
      cases hf : f (p.title ++ "\n\n" ++ md) <;> simp [hf]

theorem syncPost_archivedRemoved (o : RemoteOracle)
    (e : Option (String → Except String (List Nat))) (now : Int) (w : World)
    (stats : Stats) (p : SlimPost) :
    (syncPost o e now w stats p).2.1.archivedRemoved
      = stats.archivedRemoved := by
  simp only [syncPost]
  repeat' split
  all_goals simp

theorem processFold_archivedRemoved (o : RemoteOracle)
    (e : Option (String → Except String (List Nat))) (now : Int) :
    ∀ (posts : List SlimPost) (acc : World × Stats × List Effect),
    (posts.foldl (processPost o e now) acc).2.1.archivedRemoved
      = acc.2.1.archivedRemoved := by
  intro posts
  induction posts with
  | nil => intro acc; rfl
  | cons p posts ih =>
      intro acc
      rw [List.foldl_cons, ih]
      simp only [processPost]
      split <;> simp [syncPost_archivedRemoved]

theorem processFold_frame (o : RemoteOracle)
    (e : Option (String → Except String (List Nat))) (now : Int) :
    ∀ (posts : List SlimPost) (acc : World × Stats × List Effect)
      (a : String), (∀ q ∈ posts, q.id ≠ a) →
    rowOf (posts.foldl (processPost o e now) acc).1 a = rowOf acc.1 a
    ∧ indexEntryOf (posts.foldl (processPost o e now) acc).1 a
      = indexEntryOf acc.1 a := by
  intro posts
  induction posts with
  | nil => intro acc a _; exact ⟨rfl, rfl⟩
  | cons q posts ih =>
      intro acc a hids
      rw [List.foldl_cons]
      have hframe := syncPost_frame o e now acc.1 acc.2.1 q a
        (fun h => hids q (List.mem_cons_self q posts) h.symm)
      have hrest := ih (processPost o e now acc q) a
        (fun r hr => hids r (List.mem_cons_of_mem q hr))
      refine ⟨hrest.1.trans ?_, hrest.2.trans ?_⟩
      · rw [processPost_world]
        exact hframe.1
      · rw [processPost_world]
        exact hframe.2

theorem processFold_trace_ids (o : RemoteOracle)
    (e : Option (String → Except String (List Nat))) (now : Int) :
    ∀ (posts : List SlimPost) (acc : World × Stats × List Effect),
    ∀ eff ∈ (posts.foldl (processPost o e now) acc).2.2,
      eff ∈ acc.2.2
      ∨ ∃ q ∈ posts, effectId eff = some q.id ∨ effectId eff = none := by
  intro posts
  induction posts with
  | nil => intro acc eff heff; exact Or.inl heff
  | cons q posts ih =>
      intro acc eff heff
      rw [List.foldl_cons] at heff
      rcases ih _ eff heff with h | ⟨r, hr, hspec⟩
      · rw [processPost_trace] at h
        rcases List.mem_append.mp h with h1 | h1
        · exact Or.inl h1
        · exact Or.inr ⟨q, List.mem_cons_self q posts,
            traceOk_spec q.id _ (syncPost_traceOk o e now acc.1 acc.2.1 q)
              eff h1⟩
      · exact Or.inr ⟨r, List.mem_cons_of_mem q hr, hspec⟩

/-- C5 (amended): with no cap configured (`maxPosts = 0`) and index deletes
succeeding, every document marked archived in the remote listing has its
lexical index entry removed and is counted under `archived_removed`, while
its relational row is neither written nor deleted. With a cap configured the
Go loop `break`s at the cap, so archived documents later in the listing are
never collected for removal — see the counterexample. -/
theorem c5_archived_removal :
    ∀ (o : RemoteOracle) (e : Option (String → Except String (List Nat)))
      (now : Int) (listing : List SlimPost) (w0 : World)
      (stats : Stats) (w' : World) (tr : List Effect),
    Sync o e 0 now (Except.ok listing) w0 = Except.ok (stats, w', tr) →
    (listing.map (fun q => q.id)).Nodup →
    (∀ i, o.deleteErr i = none) →
    stats.archivedRemoved
      = (listing.filter (fun q => q.archivedAt.isSome)).length
    ∧ ∀ p ∈ listing, p.archivedAt.isSome →
        indexEntryOf w' p.id = none
        ∧ rowOf w' p.id = rowOf w0 p.id
        ∧ Effect.dbUpsert p.id ∉ tr := by
  intro o e now listing w0 stats w' tr h hno hdel
  have hp1 : (partitionPosts 0 listing 0).1
      = listing.filter (fun p => !p.archivedAt.isSome) := by
    rw [partitionPosts_zero]
  have hp2 : (partitionPosts 0 listing 0).2
      = (listing.filter (fun p => p.archivedAt.isSome)).map
          (fun p => p.id) := by
    rw [partitionPosts_zero]
  simp only [Sync] at h
  rw [hp1, hp2] at h
  rw [Except.ok.injEq, Prod.mk.injEq, Prod.mk.injEq] at h
  obtain ⟨hs, hw, ht⟩ := h
  subst hs
  subst hw
  subst ht
  have hactive_ne : ∀ (p : SlimPost), p ∈ listing → p.archivedAt.isSome →
      ∀ q ∈ listing.filter (fun p => !p.archivedAt.isSome), q.id ≠ p.id := by
    intro p hp harch q hq hqp
    have hql := List.mem_filter.mp hq
    have hqe : q = p := nodup_ids_inj listing hno q hql.1 p hp hqp
    rw [hqe] at hql
    rw [harch] at hql
    exact absurd hql.2 (by simp)
  constructor
  · have hrm := (removeFold_stats o
      ((listing.filter (fun p => p.archivedAt.isSome)).map (fun p => p.id))
      ((listing.filter (fun p => !p.archivedAt.isSome)).foldl
        (processPost o e now)
        (w0, { totalPosts :=
          (listing.filter (fun p => !p.archivedAt.isSome)).length }, []))).2
      (fun i _ => hdel i)
    have hpa := processFold_archivedRemoved o e now
      (listing.filter (fun p => !p.archivedAt.isSome))
      (w0, { totalPosts :=
        (listing.filter (fun p => !p.archivedAt.isSome)).length }, [])
    rw [hrm, hpa, List.length_map]
    simp
  · intro p hp harch
    have hmemid : p.id ∈ (listing.filter
        (fun p => p.archivedAt.isSome)).map (fun p => p.id) :=
      List.mem_map_of_mem _ (List.mem_filter.mpr ⟨hp, harch⟩)
    have hfr := processFold_frame o e now
      (listing.filter (fun p => !p.archivedAt.isSome))
      (w0, { totalPosts :=
        (listing.filter (fun p => !p.archivedAt.isSome)).length }, [])
      p.id (hactive_ne p hp harch)
    refine ⟨?_, ?_, ?_⟩
    · exact removeFold_index_deleted o _ _ p.id hmemid (hdel p.id)
    · rw [removeFold_rowOf]
      exact hfr.1
    · intro hmem
      rcases removeFold_trace o _ _ _ hmem with h1 | ⟨i, hi⟩
      · rcases processFold_trace_ids o e now _ _ _ h1 with h2 | ⟨q, hq, h2⟩
        · cases h2
        · rcases h2 with h2 | h2
          · have : p.id = q.id := Option.some_inj.mp h2
            exact hactive_ne p hp harch q hq this.symm
          · cases h2
      · cases hi

/-- An active post later than the cap point, for the C5 counterexample. -/
def pbPost : SlimPost :=
  { id := "b", title := "", publishedAt := 0, updatedAt := 1,
    archivedAt := none, topics := [] }

/-- An archived post appearing after the cap point. -/
def pxPost : SlimPost :=
  { id := "x", title := "", publishedAt := 0, updatedAt := 1,
    archivedAt := some 1, topics := [] }

/-- The lexical index entry for the archived post. -/
def ixX : IndexedDocument :=
  { id := "x", title := "", content := "", author := "", topics := [],
    publishedAt := 0, updatedAt := 0, slabURL := "" }

/-- A world holding `docA` and the index entry of the archived post. -/
def wX : World := { db := [docA], index := [ixX] }

/-- Counterexample to C5 as stated: with the cap configured (`maxPosts = 1`)
the classification loop breaks before reaching the archived post `x`, which
is therefore neither removed from the index nor counted — the claim's
"regardless of whether the cap is configured" is false. -/
theorem c5_counterexample :
    ¬ (∀ (o : RemoteOracle) (e : Option (String → Except String (List Nat)))
        (maxPosts : Nat) (now : Int) (listing : List SlimPost) (w0 : World)
        (stats : Stats) (w' : World) (tr : List Effect),
      Sync o e maxPosts now (Except.ok listing) w0
        = Except.ok (stats, w', tr) →
      (listing.map (fun q => q.id)).Nodup →
      (∀ i, o.deleteErr i = none) →
      ∀ p ∈ listing, p.archivedAt.isSome →
        indexEntryOf w' p.id = none
        ∧ stats.archivedRemoved
          = (listing.filter (fun q => q.archivedAt.isSome)).length) := by
  intro hclaim
  have hsync : Sync trivialOracle none 1 0
      (Except.ok [paPost, pbPost, pxPost]) wX
      = Except.ok ({ totalPosts := 1, skippedPosts := 1 }, wX,
          [Effect.readUpdatedAt "a"]) := rfl
  have h := hclaim trivialOracle none 1 0 [paPost, pbPost, pxPost] wX
    _ _ _ hsync (by decide) (fun i => rfl) pxPost (by simp) (by decide)
  exact absurd h.2 (by decide)

/-- Witness for the amended C5 at the concrete two-post run over `wX`. -/
theorem c5_archived_removal_witness :
    (Sync trivialOracle none 0 0 (Except.ok [paPost, pxPost]) wX
        = Except.ok
            ({ totalPosts := 1, skippedPosts := 1, archivedRemoved := 1 },
             { db := [docA], index := [] },
             [Effect.readUpdatedAt "a", Effect.indexDelete "x"])
      ∧ ([paPost, pxPost].map (fun q => q.id)).Nodup
      ∧ (∀ i, trivialOracle.deleteErr i = none))
    ∧ (({ totalPosts := 1, skippedPosts := 1, archivedRemoved := 1 } :
          Stats).archivedRemoved
        = ([paPost, pxPost].filter (fun q => q.archivedAt.isSome)).length
      ∧ ∀ p ∈ [paPost, pxPost], p.archivedAt.isSome →
          indexEntryOf { db := [docA], index := [] } p.id = none
          ∧ rowOf { db := [docA], index := [] } p.id = rowOf wX p.id
          ∧ Effect.dbUpsert p.id
            ∉ [Effect.readUpdatedAt "a", Effect.indexDelete "x"]) :=
  ⟨⟨rfl, by decide, fun i => rfl⟩,
    c5_archived_removal trivialOracle none 0 [paPost, pxPost] wX
      { totalPosts := 1, skippedPosts := 1, archivedRemoved := 1 }
      { db := [docA], index := [] }
      [Effect.readUpdatedAt "a", Effect.indexDelete "x"]
      rfl (by decide) (fun i => rfl)⟩

theorem embedStep_fail (f : String → Except String (List Nat))
    (p : SlimPost) (md : String) (doc : Document) (stats : Stats)
    (msg : String) (hf : f (p.title ++ "\n\n" ++ md) = Except.error msg) :
    embedStep (some f) p md doc stats
      = (doc, { stats with embeddingsFailed := stats.embeddingsFailed + 1 },
         [Effect.embedCall (p.title ++ "\n\n" ++ md)]) := by
  simp only [embedStep, hf]

/-- C8: when embedding generation is enabled and the embedding call fails for
a new or changed document, the document is still persisted and indexed
without new embedding data, the failure increments the embedding-failed
counter (not the error counter, and not the generated counter), and
`syncPost` reports success; a sync run given any listing always returns a
summary, never an abort. -/
theorem c8_embedding_failure_not_fatal :
    (∀ (o : RemoteOracle) (f : String → Except String (List Nat))
        (now : Int) (w : World) (stats : Stats) (p : SlimPost)
        (markdown : String) (post : Post) (msg : String),
      o.getMarkdown p.id = Except.ok markdown →
      o.getPost p.id = Except.ok post →
      f (p.title ++ "\n\n" ++ markdown) = Except.error msg →
      o.upsertErr p.id = none → o.indexErr p.id = none →
      ¬ (getUpdatedAt w p.id ≠ 0 ∧ getUpdatedAt w p.id = p.updatedAt) →
      (syncPost o (some f) now w stats p).2.2.2 = none
      ∧ (syncPost o (some f) now w stats p).2.1.embeddingsFailed
          = stats.embeddingsFailed + 1
      ∧ (syncPost o (some f) now w stats p).2.1.errors = stats.errors
      ∧ (syncPost o (some f) now w stats p).2.1.embeddingsGen
          = stats.embeddingsGen
      ∧ rowOf (syncPost o (some f) now w stats p).1 p.id
          = some (buildDocument p markdown post now)
      ∧ (buildDocument p markdown post now).embedding = []
      ∧ indexEntryOf (syncPost o (some f) now w stats p).1 p.id
          = some (toIndexedDocument (buildDocument p markdown post now) p))
    ∧ (∀ (o : RemoteOracle) (e : Option (String → Except String (List Nat)))
        (maxPosts : Nat) (now : Int) (listing : List SlimPost) (w0 : World),
      ∃ res, Sync o e maxPosts now (Except.ok listing) w0
        = Except.ok res) := by
  constructor
  · intro o f now w stats p markdown post msg hmd hpost hf hup hix hskip
    simp only [syncPost, if_neg hskip, hmd, hpost, hup, hix,
      embedStep_fail f p markdown (buildDocument p markdown post now) stats
        msg hf]
    refine ⟨?_, ?_, ?_, ?_, ?_, buildDocument_embedding p markdown post now,
      ?_⟩
    · trivial
    · first | trivial | (split <;> rfl)
    · first | trivial | (split <;> rfl)
    · first | trivial | (split <;> rfl)
    · rw [← buildDocument_id p markdown post now]
      exact rowOf_dbUpsertW_self w (buildDocument p markdown post now)
    · have h := indexEntryOf_indexUpsertW_self
        (dbUpsertW w (buildDocument p markdown post now))
        (toIndexedDocument (buildDocument p markdown post now) p)
      rw [toIndexedDocument_id, buildDocument_id] at h
      exact h
  · intro o e maxPosts now listing w0
    exact ⟨_, rfl⟩

/-- The oracle used in the C8 witness: fetches succeed, writes succeed. -/
def okOracle : RemoteOracle :=
  { getMarkdown := fun _ => Except.ok "body",
    getPost := fun _ => Except.ok ⟨none⟩,
    upsertErr := fun _ => none,
    indexErr := fun _ => none,
    deleteErr := fun _ => none }

/-- Witness for C8 at a concrete new document with a failing embedder. -/
theorem c8_embedding_failure_not_fatal_witness :
    (okOracle.getMarkdown pbPost.id = Except.ok "body"
      ∧ okOracle.getPost pbPost.id = Except.ok ⟨none⟩
      ∧ (fun (_ : String) =>
          (Except.error "fail" : Except String (List Nat)))
          (pbPost.title ++ "\n\n" ++ "body") = Except.error "fail"
      ∧ okOracle.upsertErr pbPost.id = none
      ∧ okOracle.indexErr pbPost.id = none
      ∧ ¬ (getUpdatedAt ⟨[], []⟩ pbPost.id ≠ 0
          ∧ getUpdatedAt ⟨[], []⟩ pbPost.id = pbPost.updatedAt))
    ∧ ((syncPost okOracle (some (fun _ => Except.error "fail")) 0 ⟨[], []⟩
          {} pbPost).2.2.2 = none
      ∧ (syncPost okOracle (some (fun _ => Except.error "fail")) 0 ⟨[], []⟩
          {} pbPost).2.1.embeddingsFailed
          = ({} : Stats).embeddingsFailed + 1
      ∧ (syncPost okOracle (some (fun _ => Except.error "fail")) 0 ⟨[], []⟩
          {} pbPost).2.1.errors = ({} : Stats).errors
      ∧ (syncPost okOracle (some (fun _ => Except.error "fail")) 0 ⟨[], []⟩
          {} pbPost).2.1.embeddingsGen = ({} : Stats).embeddingsGen
      ∧ rowOf (syncPost okOracle (some (fun _ => Except.error "fail")) 0
          ⟨[], []⟩ {} pbPost).1 pbPost.id
          = some (buildDocument pbPost "body" ⟨none⟩ 0)
      ∧ (buildDocument pbPost "body" ⟨none⟩ 0).embedding = []
      ∧ indexEntryOf (syncPost okOracle
          (some (fun _ => Except.error "fail")) 0 ⟨[], []⟩ {} pbPost).1
          pbPost.id
          = some (toIndexedDocument (buildDocument pbPost "body" ⟨none⟩ 0)
              pbPost)) :=
  ⟨⟨rfl, rfl, rfl, rfl, rfl, by decide⟩,
    c8_embedding_failure_not_fatal.1 okOracle (fun _ => Except.error "fail")
      0 ⟨[], []⟩ {} pbPost "body" ⟨none⟩ "fail" rfl rfl rfl rfl rfl
      (by decide)⟩

end SlabSearch
